import Mathlib

/-!
# go-steam: the generator's source rewrite pass, its output decorator, and the
# game-coordinator packet layer

Shallow embedding of `generator/generator.go` (`fixProto`, `inferPackageName`,
`quotedWriter`) and of `gamecoordinator.go` (`RegisterPacketHandler`,
`HandlePacket`, `Write`), followed by the properties proved about them.

Conventions.
* A file's contents (`[]byte`) and Go strings are `Text = List Char`. The texts
  the generator handles are ASCII, where bytes and characters coincide; of a
  text with other characters the elements are the characters of its UTF-8
  form, in which the byte-wise searches of the source find the same
  occurrences. The one place where the Go code decodes characters, the
  reference names of a replacement template, reads the Unicode tables of the
  standard library: they are the parameter `uni`.
* Functions of the Go standard library that the source calls (`bytes.Replace`,
  `strings.Split`, `strings.Contains`, `filepath.Base`, `regexp.ReplaceAll*`)
  are embedded by what they compute on these texts.
* `go/parser.ParseFile(..., ImportsOnly)` is not embedded: the list of import
  specs it returns is an input of `fixProto`, next to the path and the contents
  of the file. Reading and writing the file are left out; `fixProto` here is
  the text that the Go function writes back.
* A Go run-time panic (index out of range, nil dereference) is `none`.
* `quotedWriter` is taken over an underlying writer that never fails and
  accepts every write in full; its state is what has been delivered so far.
* In `GameCoordinator.HandlePacket` the test on the packet type and the
  decoding of the envelope, which live in other packages, are parameters.
-/

namespace GoSteam

/-- File contents and strings: one element per character, which on ASCII
texts is a byte. -/
abbrev Text := List Char

/-! ## Standard-library helpers -/

/-- The character class `\w` of Go regular expressions: `[0-9A-Za-z_]`. -/
def isWordChar (c : Char) : Bool :=
  (48 ≤ c.toNat && c.toNat ≤ 57) || (65 ≤ c.toNat && c.toNat ≤ 90) ||
    (97 ≤ c.toNat && c.toNat ≤ 122) || c.toNat == 95

/-- The character class `\d` of Go regular expressions: `[0-9]`. -/
def isDigitChar (c : Char) : Bool :=
  48 ≤ c.toNat && c.toNat ≤ 57

/-- Go `strings.Contains(s, sub)`. -/
def containsSub (sub : Text) : Text → Bool
  | [] => sub.isEmpty
  | c :: s => sub.isPrefixOf (c :: s) || containsSub sub s

/-- Leftmost, non-overlapping replacement scan shared by `bytes.Replace` and the
`regexp.ReplaceAll*` family: at each position not covered by an earlier match,
`m` says how many characters the pattern matches there (`none`: no match), the
matched text is replaced by `r` of it, and the scan resumes right after the
match. The first argument counts the characters of the current match still to
be skipped. The patterns used below never match the empty text. -/
def replaceScan (m : Text → Option Nat) (r : Text → Text) : Nat → Text → Text
  | _, [] => []
  | k + 1, _ :: s => replaceScan m r k s
  | 0, c :: s =>
    match m (c :: s) with
    | some (n + 1) => r ((c :: s).take (n + 1)) ++ replaceScan m r n s
    | _ => c :: replaceScan m r 0 s

/-- Match length of the literal `old` at the head of a text. -/
def literalMatch (old : Text) (s : Text) : Option Nat :=
  if old.isPrefixOf s then some old.length else none

/-- Go `bytes.Replace(s, old, new, -1)`. For an empty `old` Go inserts `new`
before every character and at the end. -/
def bytesReplace (s old new : Text) : Text :=
  match old with
  | [] => new ++ s.flatMap (fun c => c :: new)
  | _ :: _ => replaceScan (literalMatch old) (fun _ => new) 0 s

/-- Go `strings.Split(s, sep)` for a one-character separator. -/
def splitSep (sep : Char) : Text → List Text
  | [] => [[]]
  | c :: s =>
    if c = sep then [] :: splitSep sep s
    else
      match splitSep sep s with
      | [] => [[c]]
      | p :: ps => (c :: p) :: ps

/-- Drop trailing path separators (first loop of `filepath.Base`). -/
def stripTrailingSep (path : Text) : Text :=
  (path.reverse.dropWhile (fun c => c == '/')).reverse

/-- Go `filepath.Base` on a Unix path (separator `/`, no volume name). -/
def Base (path : Text) : Text :=
  if path = [] then ['.']
  else
    let p := stripTrailingSep path
    let last := (p.reverse.takeWhile (fun c => c != '/')).reverse
    if last = [] then ['/'] else last

/-! ## Regular expressions of `generator.go` -/

/-- Match length of `package \w+` (the regexp `pkgRegex`) at the head. -/
def pkgRegex (s : Text) : Option Nat :=
  if "package ".toList.isPrefixOf s then
    let w := (s.drop 8).takeWhile isWordChar
    if w = [] then none else some (8 + w.length)
  else none

/-- Match length of `// discarding unused import .*\n`
(`unusedImportCommentRegex`) at the head: `.` matches everything but a line
break, so the match runs to the first line break, which must exist. -/
def unusedImportCommentRegex (s : Text) : Option Nat :=
  if "// discarding unused import ".toList.isPrefixOf s then
    let rest := s.drop 28
    if rest.contains '\n' then some (28 + (rest.takeWhile (fun c => c != '\n')).length + 1)
    else none
  else none

/-- Match length of `fileDescriptor\d+` (`fileDescriptorVarRegex`) at the head. -/
def fileDescriptorVarRegex (s : Text) : Option Nat :=
  if "fileDescriptor".toList.isPrefixOf s then
    let d := (s.drop 14).takeWhile isDigitChar
    if d = [] then none else some (14 + d.length)
  else none

/-- Characters of a `$name` reference in a replacement template:
`unicode.IsLetter(c) || unicode.IsDigit(c) || c == '_'` of `regexp.extract`.
On ASCII this is `[0-9A-Za-z_]`; for the other characters the Unicode tables
of the standard library are the parameter `uni`. -/
def isNameChar (uni : Char → Bool) (c : Char) : Bool :=
  if c.toNat < 128 then isWordChar c else uni c

/-- The number a reference name denotes, as in `regexp.extract`: `none` for a
name that is not a number, is longer than nine digits, or has a leading zero. -/
def parseNumAux : Nat → Text → Option Nat
  | num, [] => some num
  | num, c :: cs =>
    if !isDigitChar c || num ≥ 100000000 then none
    else parseNumAux (num * 10 + (c.toNat - 48)) cs

/-- Go `regexp.extract`: the reference after a `$`, either `name` or `{name}`;
returns the number of the reference (if it is one) and the rest of the
template, `none` when malformed. -/
def extract (uni : Char → Bool) (str : Text) : Option (Option Nat × Text) :=
  if str = [] then none
  else
    let brace := str.head? == some '{'
    let str1 := if brace then str.drop 1 else str
    let name := str1.takeWhile (isNameChar uni)
    if name = [] then none
    else
      let after := str1.drop name.length
      if brace && after.head? != some '}' then none
      else
        let rest := if brace then after.drop 1 else after
        let num := if name.head? == some '0' && name.length > 1 then none else parseNumAux 0 name
        some (num, rest)

/-- Go `Regexp.expand` for `pkgRegex`, whose groups 0 and 1 both are the whole
match and which has no named group: `$$` is a dollar sign, `$0`, `$1`, `${0}`,
`${1}` are the matched text, any other well-formed reference is empty, and a
malformed one leaves the `$` in place. The first argument bounds the number of
steps; every step consumes a character of the template. -/
def expandAux (uni : Char → Bool) (mtch : Text) : Nat → Text → Text
  | 0, t => t
  | fuel + 1, t =>
    match t with
    | [] => []
    | c :: t1 =>
      if c != '$' then c :: expandAux uni mtch fuel t1
      else
        match t1 with
        | '$' :: t2 => '$' :: expandAux uni mtch fuel t2
        | _ =>
          match extract uni t1 with
          | none => '$' :: expandAux uni mtch fuel t1
          | some (num, rest) =>
            (if num = some 0 ∨ num = some 1 then mtch else []) ++ expandAux uni mtch fuel rest

/-- Expansion of a replacement template against a match of `pkgRegex`. -/
def expand (uni : Char → Bool) (template mtch : Text) : Text :=
  expandAux uni mtch template.length template

/-! ## `fixProto` -/

/-- An `*ast.ImportSpec` as far as `fixProto` reads it: `Name` is the alias
identifier (`nil`, here `none`, when the import has no alias) and `Path` is
the path literal `Path.Value`, quotes included. -/
structure ImportSpec where
  Name : Option Text
  Path : Text
deriving DecidableEq, Repr

/-- The path of the descriptor-metadata (Shared) import as the compiler emits it. -/
def descriptorProto : Text := "google/protobuf/descriptor.proto".toList

/-- The canonical path the Shared import is repointed to. -/
def descriptorpb : Text := "google.golang.org/protobuf/types/descriptorpb".toList

/-- The classification of lines 261-269: an import is Local, and will be
removed, when its path literal does not contain the descriptor path and
contains `.proto`. -/
def isLocal (i : ImportSpec) : Bool :=
  !containsSub descriptorProto i.Path && containsSub ".proto".toList i.Path

/-- The slice `importsToRemove` built by the first loop of `fixProto`. -/
def importsToRemove (imports : List ImportSpec) : List ImportSpec :=
  imports.filter isLocal

/-- First statement of the removal loop: delete every `name.` from the file. -/
def stripQualifier (name file : Text) : Text :=
  bytesReplace file (name ++ ['.']) []

/-- The declaration text `fmt.Sprintf("%v %v", name, path)` of an import. -/
def declText (name path : Text) : Text :=
  name ++ " ".toList ++ path

/-- Second statement of the removal loop: delete every `name path`. -/
def removeImportDecl (name path file : Text) : Text :=
  bytesReplace file (declText name path) []

/-- One iteration of the removal loop (lines 271-276); reading the name of
an import without alias dereferences `nil`. -/
def removeImport (file : Text) (itr : ImportSpec) : Option Text :=
  match itr.Name with
  | none => none
  | some name => some (removeImportDecl name itr.Path (stripQualifier name file))

/-- The removal loop over `importsToRemove`. -/
def stripImports : List ImportSpec → Text → Option Text
  | [], file => some file
  | itr :: rest, file =>
    match removeImport file itr with
    | none => none
    | some file1 => stripImports rest file1

/-- Line 279: `unusedImportCommentRegex.ReplaceAllLiteral(file, [])`. -/
def stripWarnings (file : Text) : Text :=
  replaceScan unusedImportCommentRegex (fun _ => []) 0 file

/-- Go `inferPackageName`: the second-to-last piece of the path split at the
separator; the index is out of range when there is no separator. -/
def inferPackageName (path : Text) : Option Text :=
  let pieces := splitSep '/' path
  if pieces.length < 2 then none else pieces.get? (pieces.length - 2)

/-- Line 282: `pkgRegex.ReplaceAll(file, "package " + pkg)`; the replacement is
a template. -/
def fixPackage (uni : Char → Bool) (pkg file : Text) : Text :=
  replaceScan pkgRegex (expand uni ("package ".toList ++ pkg)) 0 file

/-- Line 286: repoint the descriptor import. -/
def fixDescriptor (file : Text) : Text :=
  bytesReplace file descriptorProto descriptorpb

/-- Line 289: `strings.Split(filepath.Base(path), ".")[0]`. -/
def fileBaseName (path : Text) : Text :=
  (Base path).takeWhile (fun c => c != '.')

/-- Lines 290-292: prefix every `fileDescriptor<digits>` with the file name. -/
def prefixFileDescriptors (filename file : Text) : Text :=
  replaceScan fileDescriptorVarRegex (fun mtch => filename ++ '_' :: mtch) 0 file

/-- The text `fixProto` writes back to `path`, from the file's contents and
the import specs the parser found in it. `none` is a run-time panic. `uni` is
the Unicode table read by the template expansion of the package step. -/
def fixProto (uni : Char → Bool) (imports : List ImportSpec) (path file : Text) :
    Option Text :=
  match stripImports (importsToRemove imports) file with
  | none => none
  | some f1 =>
    match inferPackageName path with
    | none => none
    | some pkg =>
      some (prefixFileDescriptors (fileBaseName path)
        (fixDescriptor (fixPackage uni pkg (stripWarnings f1))))

/-! ## `quotedWriter` -/

/-- The quoting marker. -/
def marker : Text := "> ".toList

/-- A `quotedWriter` over an underlying writer that never fails and accepts
every write in full: `w` is everything delivered to the underlying writer so
far, `started` is the flag of the source. -/
structure quotedWriter where
  w : Text
  started : Bool
deriving DecidableEq, Repr

/-- Go `newQuotedWriter`. -/
def newQuotedWriter : quotedWriter := ⟨[], false⟩

/-- The `for i, c := range p` loop of `Write`, over the remaining indexed
characters; the state is `n` (bytes of `p` written so far) and the underlying
writer's contents. At a line break it writes `p[n : i+1]` and then the marker. -/
def writeLoop (p : Text) : List (Nat × Char) → Nat × Text → Nat × Text
  | [], st => st
  | (i, c) :: rest, (n, out) =>
    if c = '\n' then
      writeLoop p rest (n + ((p.take (i + 1)).drop n).length,
        out ++ (p.take (i + 1)).drop n ++ marker)
    else writeLoop p rest (n, out)

/-- Go `(*quotedWriter).Write`: the new state and the returned count `n`. -/
def quotedWriter.Write (q : quotedWriter) (p : Text) : quotedWriter × Nat :=
  let out0 := if q.started then q.w else q.w ++ marker
  let st := writeLoop p p.enum (0, out0)
  if st.1 ≠ p.length then (⟨st.2 ++ p.drop st.1, true⟩, st.1 + (p.drop st.1).length)
  else (⟨st.2, true⟩, st.1)

/-- Writing a sequence of slices in order. -/
def writeAll (q : quotedWriter) (ps : List Text) : quotedWriter :=
  ps.foldl (fun q p => (q.Write p).1) q

/-- The text with the marker inserted after every line break. -/
def quoteLines (s : Text) : Text :=
  s.flatMap (fun c => if c = '\n' then '\n' :: marker else [c])

/-! ## `GameCoordinator` -/

/-- A `GCPacketHandler`: its method `HandleGCPacket`, acting on the state `W`
of the rest of the program. -/
abbrev GCPacketHandler (P W : Type) := P → W → W

/-- The `GameCoordinator`, as far as the packet layer goes: its handlers. -/
structure GameCoordinator (P W : Type) where
  handlers : List (GCPacketHandler P W)

/-- Go `newGC`. -/
def newGC {P W : Type} : GameCoordinator P W := ⟨[]⟩

/-- Go `RegisterPacketHandler`. -/
def GameCoordinator.RegisterPacketHandler {P W : Type} (g : GameCoordinator P W)
    (handler : GCPacketHandler P W) : GameCoordinator P W :=
  ⟨g.handlers ++ [handler]⟩

/-- Registering a sequence of handlers in order. -/
def registerAll {P W : Type} (g : GameCoordinator P W)
    (hs : List (GCPacketHandler P W)) : GameCoordinator P W :=
  hs.foldl (fun g h => g.RegisterPacketHandler h) g

/-- Go `HandlePacket`. `isClientFromGC` is the test `packet.EMsg ==
EMsg_ClientFromGC` and `NewGCPacket` the decoding of the envelope
(`ReadProtoMsg` followed by `gamecoordinator.NewGCPacket`), both defined outside
this file of the source. The result is the state after the handlers ran and the
errors logged through `client.Errorf`. -/
def GameCoordinator.HandlePacket {Pkt P E W : Type} (isClientFromGC : Pkt → Bool)
    (NewGCPacket : Pkt → Except E P) (g : GameCoordinator P W) (packet : Pkt)
    (world : W) : W × List E :=
  if !isClientFromGC packet then (world, [])
  else
    match NewGCPacket packet with
    | .error err => (world, [err])
    | .ok p => (g.handlers.foldl (fun w handler => handler p w) world, [])

/-- A handler that records its invocation: its number and the packet it got. -/
def recorder {P : Type} (i : Nat) : GCPacketHandler P (List (Nat × P)) :=
  fun p log => log ++ [(i, p)]

/-- What `Write` reads from an `IGCMsg`: the results of its methods
(`GetMsgType` and `GetAppId` are `uint32`). -/
structure IGCMsg where
  GetAppId : Nat
  GetMsgType : Nat
  IsProto : Bool
  Serialize : List Nat

/-- The envelope `CMsgGCClient` handed to `client.Write`. -/
structure CMsgGCClient where
  Msgtype : Nat
  Appid : Nat
  Payload : List Nat
deriving DecidableEq, Repr

/-- Go `GameCoordinator.Write`: the envelope it sends. -/
def GameCoordinator.Write (msg : IGCMsg) : CMsgGCClient :=
  let msgType := msg.GetMsgType % 2 ^ 32
  let msgType := if msg.IsProto then (msgType ||| 0x80000000) % 2 ^ 32 else msgType
  { Msgtype := msgType, Appid := msg.GetAppId % 2 ^ 32, Payload := msg.Serialize }

/-- The high bit (`0x80000000`) of a 32-bit field. -/
def highBit (x : Nat) : Bool := x.testBit 31

/-- The low 31 bits of a field. -/
def low31 (x : Nat) : Nat := x % 2 ^ 31

/-! ## Conditions used in the statements -/

/-- The path whose separator-delimited components are `pieces`. -/
def joinPath (pieces : List Text) : Text := ['/'].intercalate pieces

/-- The pattern `P` cannot arise from a replacement of the scan of `t`: for
every match of `m` in the text, at whatever place, the text that replaces it
neither contains `P` nor starts with a proper end piece of `P`, and either the
match is at the end of the text or directly followed by a character that does
not occur in `P`, or the replacing text neither ends with a proper start piece
of `P` nor starts a proper end piece of `P`. -/
def ScanSafe (P : Text) (m : Text → Option Nat) (r : Text → Text) (t : Text) : Prop :=
  ∀ u v n, t = u ++ v → m v = some n →
    ¬ P <:+: r (v.take n) ∧
    (∀ k, 0 < k → k < P.length → ¬ P.drop k <+: r (v.take n)) ∧
    ((∀ c, (v.drop n).head? = some c → c ∉ P) ∨
      ∀ k, 0 < k → k < P.length →
        ¬ P.take k <:+ r (v.take n) ∧ ¬ r (v.take n) <+: P.drop k)

/-- The condition of `ScanSafe` for a match at the head of `v`. -/
def scanSafeAt (P : Text) (m : Text → Option Nat) (r : Text → Text) (v : Text) : Bool :=
  match m v with
  | none => true
  | some n =>
    !containsSub P (r (v.take n)) &&
    ((List.range P.length).all fun k => k == 0 || !(P.drop k).isPrefixOf (r (v.take n))) &&
    ((match (v.drop n).head? with
        | none => true
        | some d => !P.contains d) ||
      (List.range P.length).all fun k => k == 0 ||
        (!(P.take k).isSuffixOf (r (v.take n)) && !(r (v.take n)).isPrefixOf (P.drop k)))

/-- Executable form of `ScanSafe`. -/
def scanSafeB (P : Text) (m : Text → Option Nat) (r : Text → Text) : Text → Bool
  | [] => scanSafeAt P m r []
  | c :: s => scanSafeAt P m r (c :: s) && scanSafeB P m r s

/-- Every occurrence of `P` in `t` is the start of an occurrence of `D`. -/
def ExtendsTo (P D t : Text) : Prop :=
  ∀ u v, t = u ++ v → P <+: v → D <+: v

/-- The pattern `P` cannot arise in the removal loop: at every iteration it
arises neither from the deletion of the qualifier nor from the deletion of the
declaration text. -/
def LoopSafe (P : Text) : List ImportSpec → Text → Prop
  | [], _ => True
  | itr :: rest, file =>
    match itr.Name with
    | none => True
    | some name =>
      ScanSafe P (literalMatch (name ++ ['.'])) (fun _ => []) file ∧
      ScanSafe P (literalMatch (declText name itr.Path)) (fun _ => [])
        (stripQualifier name file) ∧
      LoopSafe P rest (removeImportDecl name itr.Path (stripQualifier name file))

/-- Executable form of `LoopSafe`. -/
def loopSafeB (P : Text) : List ImportSpec → Text → Bool
  | [], _ => true
  | itr :: rest, file =>
    match itr.Name with
    | none => true
    | some name =>
      scanSafeB P (literalMatch (name ++ ['.'])) (fun _ => []) file &&
      scanSafeB P (literalMatch (declText name itr.Path)) (fun _ => [])
        (stripQualifier name file) &&
      loopSafeB P rest (removeImportDecl name itr.Path (stripQualifier name file))

/-- The pattern `P` cannot arise in the steps after the removal loop, run on
the text `f1` with the package name `pkg` and the file name `b`: not from the
deletion of a warning comment, nor from the rewriting of a package clause, nor
from the repointing of the descriptor path, nor from the prefixing of a
`fileDescriptor` symbol. -/
def TailSafe (uni : Char → Bool) (P pkg b f1 : Text) : Prop :=
  ScanSafe P unusedImportCommentRegex (fun _ => []) f1 ∧
  ScanSafe P pkgRegex (expand uni ("package ".toList ++ pkg)) (stripWarnings f1) ∧
  ScanSafe P (literalMatch descriptorProto) (fun _ => descriptorpb)
    (fixPackage uni pkg (stripWarnings f1)) ∧
  ScanSafe P fileDescriptorVarRegex (fun mtch => b ++ '_' :: mtch)
    (fixDescriptor (fixPackage uni pkg (stripWarnings f1)))

/-- Executable form of `TailSafe`. -/
def tailSafeB (uni : Char → Bool) (P pkg b f1 : Text) : Bool :=
  scanSafeB P unusedImportCommentRegex (fun _ => []) f1 &&
  scanSafeB P pkgRegex (expand uni ("package ".toList ++ pkg)) (stripWarnings f1) &&
  scanSafeB P (literalMatch descriptorProto) (fun _ => descriptorpb)
    (fixPackage uni pkg (stripWarnings f1)) &&
  scanSafeB P fileDescriptorVarRegex (fun mtch => b ++ '_' :: mtch)
    (fixDescriptor (fixPackage uni pkg (stripWarnings f1)))

/-- The pattern `P` cannot arise from any replacement that `fixProto` performs
on the file: not in the removal loop, and not in the steps after it, run on
the text the loop returns. -/
def RewriteSafe (uni : Char → Bool) (P : Text) (imports : List ImportSpec)
    (path file : Text) : Prop :=
  LoopSafe P (importsToRemove imports) file ∧
  ∀ f1 pkg, stripImports (importsToRemove imports) file = some f1 →
    inferPackageName path = some pkg → TailSafe uni P pkg (fileBaseName path) f1

/-- Executable form of `RewriteSafe`. -/
def rewriteSafeB (uni : Char → Bool) (P : Text) (imports : List ImportSpec)
    (path file : Text) : Bool :=
  loopSafeB P (importsToRemove imports) file &&
  match stripImports (importsToRemove imports) file, inferPackageName path with
  | some f1, some pkg => tailSafeB uni P pkg (fileBaseName path) f1
  | _, _ => true

/-- No match of `m` touches the stretch `mid` of the text `pre ++ mid ++ post`:
a match that starts in `pre` ends in `pre`, and no match starts in `mid`. -/
def Untouched (m : Text → Option Nat) (pre mid post : Text) : Prop :=
  (∀ u v n, pre = u ++ v → v ≠ [] → m (v ++ (mid ++ post)) = some n → n ≤ v.length) ∧
  (∀ u v, mid = u ++ v → v ≠ [] → m (v ++ post) = none)

/-- Executable form of the first half of `Untouched`. -/
def untouchedPreB (m : Text → Option Nat) (rest : Text) : Text → Bool
  | [] => true
  | c :: s =>
    (match m (c :: s ++ rest) with
      | none => true
      | some n => decide (n ≤ (c :: s).length)) && untouchedPreB m rest s

/-- Executable form of the second half of `Untouched`. -/
def untouchedMidB (m : Text → Option Nat) (post : Text) : Text → Bool
  | [] => true
  | c :: s => (m (c :: s ++ post)).isNone && untouchedMidB m post s

/-- Executable form of `Untouched`. -/
def untouchedB (m : Text → Option Nat) (pre mid post : Text) : Bool :=
  untouchedPreB m (mid ++ post) pre && untouchedMidB m post mid

/-- No deletion of the removal loop touches the stretch `sym` between the
texts `pre` and `post`, which the loop rewrites as it goes: at every iteration
neither an occurrence of the qualifier nor an occurrence of the declaration
text overlaps `sym`. -/
def LoopUntouched (sym : Text) : List ImportSpec → Text → Text → Prop
  | [], _, _ => True
  | itr :: rest, pre, post =>
    match itr.Name with
    | none => True
    | some name =>
      Untouched (literalMatch (name ++ ['.'])) pre sym post ∧
      Untouched (literalMatch (declText name itr.Path))
        (stripQualifier name pre) sym (stripQualifier name post) ∧
      LoopUntouched sym rest
        (removeImportDecl name itr.Path (stripQualifier name pre))
        (removeImportDecl name itr.Path (stripQualifier name post))

/-- Executable form of `LoopUntouched`. -/
def loopUntouchedB (sym : Text) : List ImportSpec → Text → Text → Bool
  | [], _, _ => true
  | itr :: rest, pre, post =>
    match itr.Name with
    | none => true
    | some name =>
      untouchedB (literalMatch (name ++ ['.'])) pre sym post &&
      untouchedB (literalMatch (declText name itr.Path))
        (stripQualifier name pre) sym (stripQualifier name post) &&
      loopUntouchedB sym rest
        (removeImportDecl name itr.Path (stripQualifier name pre))
        (removeImportDecl name itr.Path (stripQualifier name post))

/-- No step of `fixProto` before the disambiguation touches the stretch `sym`
of the file `pre ++ sym ++ post`: no deletion of the removal loop, no warning
comment and no match of `package \w+` overlaps it, and the text after it, as
the earlier steps leave it, does not start with a digit. -/
def SymbolUntouched (uni : Char → Bool) (sym : Text) (imports : List ImportSpec)
    (path pre post : Text) : Prop :=
  LoopUntouched sym (importsToRemove imports) pre post ∧
  ∀ pre1 post1 pkg, stripImports (importsToRemove imports) pre = some pre1 →
    stripImports (importsToRemove imports) post = some post1 →
    inferPackageName path = some pkg →
    Untouched unusedImportCommentRegex pre1 sym post1 ∧
    Untouched pkgRegex (stripWarnings pre1) sym (stripWarnings post1) ∧
    ∀ c, (fixDescriptor (fixPackage uni pkg (stripWarnings post1))).head? = some c →
      isDigitChar c = false

/-- Executable form of `SymbolUntouched`. -/
def symbolUntouchedB (uni : Char → Bool) (sym : Text) (imports : List ImportSpec)
    (path pre post : Text) : Bool :=
  loopUntouchedB sym (importsToRemove imports) pre post &&
  match stripImports (importsToRemove imports) pre,
    stripImports (importsToRemove imports) post, inferPackageName path with
  | some pre1, some post1, some pkg =>
    untouchedB unusedImportCommentRegex pre1 sym post1 &&
    untouchedB pkgRegex (stripWarnings pre1) sym (stripWarnings post1) &&
    match (fixDescriptor (fixPackage uni pkg (stripWarnings post1))).head? with
    | none => true
    | some c => !isDigitChar c
  | _, _, _ => true

/-- The table `uni` in the examples below: their texts are ASCII, so the table
is never consulted. -/
def asciiTable : Char → Bool := fun _ => false

set_option maxRecDepth 100000

variable {uni : Char → Bool}

/-! ## Lemmas: the replacement scan and `bytes.Replace` -/

theorem replaceScan_skip (m : Text → Option Nat) (r : Text → Text) :
    ∀ (k : Nat) (s : Text), replaceScan m r k s = replaceScan m r 0 (s.drop k) := by
  intro k s
  induction s generalizing k with
  | nil => cases k <;> simp [replaceScan]
  | cons c s ih =>
    cases k with
    | zero => simp
    | succ k => simp only [replaceScan, List.drop_succ_cons]; exact ih k

theorem replaceScan_cons_none (m : Text → Option Nat) (r : Text → Text) (c : Char) (s : Text)
    (h : m (c :: s) = none) : replaceScan m r 0 (c :: s) = c :: replaceScan m r 0 s := by
  simp [replaceScan, h]

theorem replaceScan_match (m : Text → Option Nat) (r : Text → Text) (t : Text) (n : Nat)
    (h : m t = some n) (hn : 0 < n) (ht : t ≠ []) :
    replaceScan m r 0 t = r (t.take n) ++ replaceScan m r 0 (t.drop n) := by
  obtain ⟨c, s, rfl⟩ := List.exists_cons_of_ne_nil ht
  obtain ⟨k, rfl⟩ := Nat.exists_eq_succ_of_ne_zero (Nat.pos_iff_ne_zero.mp hn)
  simp only [replaceScan, h, List.drop_succ_cons]
  rw [replaceScan_skip]

theorem literalMatch_hit (old s : Text) (h : old <+: s) :
    literalMatch old s = some old.length := by
  simp [literalMatch, h]

theorem literalMatch_miss (old s : Text) (h : ¬ old <+: s) :
    literalMatch old s = none := by
  simp [literalMatch, h]

theorem bytesReplace_nil (old new : Text) (h : old ≠ []) : bytesReplace [] old new = [] := by
  cases old with
  | nil => exact absurd rfl h
  | cons a old => simp [bytesReplace, replaceScan]

theorem bytesReplace_append_old (old new v : Text) (h : old ≠ []) :
    bytesReplace (old ++ v) old new = new ++ bytesReplace v old new := by
  cases old with
  | nil => exact absurd rfl h
  | cons a old =>
    simp only [bytesReplace]
    rw [replaceScan_match (literalMatch (a :: old)) (fun _ => new) (a :: old ++ v) (a :: old).length
      (literalMatch_hit _ _ (List.prefix_append _ _)) (by simp) (by simp)]
    simp

theorem bytesReplace_cons (old new : Text) (c : Char) (s : Text) (h : old ≠ [])
    (hp : ¬ old <+: c :: s) :
    bytesReplace (c :: s) old new = c :: bytesReplace s old new := by
  cases old with
  | nil => exact absurd rfl h
  | cons a old =>
    simp only [bytesReplace]
    exact replaceScan_cons_none _ _ _ _ (literalMatch_miss _ _ hp)

/-- Strong induction on a text along the scan of `bytes.Replace`: either the
pattern is at the head, and the scan resumes after it, or the head character is
kept. -/
theorem bytesReplace_induction (old : Text) (h : old ≠ []) (motive : Text → Prop)
    (nil : motive [])
    (skip : ∀ v, motive v → motive (old ++ v))
    (keep : ∀ c s, ¬ old <+: c :: s → motive s → motive (c :: s)) :
    ∀ t, motive t := by
  have key : ∀ n (t : Text), t.length ≤ n → motive t := by
    intro n
    induction n with
    | zero =>
      intro t ht
      cases t with
      | nil => exact nil
      | cons c s => simp at ht
    | succ n ih =>
      intro t ht
      cases t with
      | nil => exact nil
      | cons c s =>
        by_cases hp : old <+: c :: s
        · obtain ⟨v, hv⟩ := hp
          rw [← hv]
          apply skip
          apply ih
          have hlen : (old ++ v).length = (c :: s).length := by rw [hv]
          have hl : 0 < old.length := List.length_pos.mpr h
          simp only [List.length_append, List.length_cons] at hlen ht
          omega
        · apply keep c s hp
          apply ih
          simp only [List.length_cons] at ht
          omega
  exact fun t => key t.length t (Nat.le_refl _)

theorem containsSub_iff (sub : Text) : ∀ s : Text, containsSub sub s = true ↔ sub <:+: s := by
  intro s
  induction s with
  | nil => simp [containsSub, List.isEmpty_iff]
  | cons c s ih =>
    rw [containsSub, Bool.or_eq_true, ih, List.infix_cons_iff, List.isPrefixOf_iff_prefix]

theorem containsSub_eq_false_iff (sub s : Text) : containsSub sub s = false ↔ ¬ sub <:+: s := by
  rw [← containsSub_iff, Bool.not_eq_true]

/-- An occurrence in a concatenation lies in the left part, in the right part,
or straddles the junction. -/
theorem infix_append_cases {l a b : Text} (h : l <:+: a ++ b) :
    l <:+: a ∨ l <:+: b ∨
      ∃ k, 0 < k ∧ k < l.length ∧ l.take k <:+ a ∧ l.drop k <+: b := by
  obtain ⟨s, t, hst⟩ := h
  rw [List.append_assoc] at hst
  rcases List.append_eq_append_iff.mp hst with ⟨a1, ha, hlt⟩ | ⟨c1, hs, hb⟩
  · rcases List.append_eq_append_iff.mp hlt with ⟨d, hl, _⟩ | ⟨d, hl, hb⟩
    · left
      refine ⟨s, d, ?_⟩
      rw [ha, hl]; simp
    · by_cases hd : d = []
      · subst hd
        left
        refine ⟨s, [], ?_⟩
        rw [ha, hl]; simp
      by_cases ha1 : a1 = []
      · subst ha1
        right; left
        refine ⟨[], t, ?_⟩
        rw [hb, hl]; simp
      right; right
      refine ⟨a1.length, List.length_pos.mpr ha1, ?_, ?_, ?_⟩
      · rw [hl]; simp [List.length_pos.mpr hd]
      · rw [hl, List.take_left']
        · exact ⟨s, ha.symm⟩
        · rfl
      · rw [hl, List.drop_left']
        · exact ⟨t, hb.symm⟩
        · rfl
  · right; left
    exact ⟨c1, t, by rw [hb]; simp⟩

/-- A suffix of `old` that starts the result of replacing `old` by `new`
already starts the original text, when no proper suffix of `old` can start
with `new` or start `new`. -/
theorem prefix_of_prefix_replace (old new : Text) (h : old ≠ [])
    (hlen : old.length ≤ new.length + 1)
    (h2 : ∀ k, k < old.length → 0 < k → ¬ old.drop k <+: new) :
    ∀ t k, old.drop k <+: bytesReplace t old new → old.drop k <+: t := by
  apply bytesReplace_induction old h
  · intro k hx
    rw [bytesReplace_nil _ _ h] at hx
    exact hx
  · intro v _ k hx
    rw [bytesReplace_append_old _ _ _ h] at hx
    by_cases hk0 : k = 0
    · subst hk0; simp
    by_cases hk : k < old.length
    · exfalso
      apply h2 k hk (Nat.pos_of_ne_zero hk0)
      apply List.prefix_of_prefix_length_le hx (List.prefix_append _ _)
      simp only [List.length_drop]
      omega
    · rw [List.drop_eq_nil_of_le (by omega)]
      exact List.nil_prefix
  · intro c s hnp ih k hx
    rw [bytesReplace_cons _ _ _ _ h hnp] at hx
    rcases List.prefix_cons_iff.mp hx with h0 | ⟨x1, hx1, hp⟩
    · rw [h0]; exact List.nil_prefix
    · have hd : old.drop (k + 1) = x1 := by
        have := congrArg (List.drop 1) hx1
        simpa [List.drop_drop, Nat.add_comm] using this
      rw [hx1, List.cons_prefix_cons]
      refine ⟨rfl, ?_⟩
      rw [← hd]
      apply ih
      rw [hd]
      exact hp

/-- Replacing every occurrence of `old` by `new` leaves no occurrence of `old`
when `old` does not occur in `new` and no proper, non-empty piece of `old` at
one end of it is a piece of `new` at the matching end. -/
theorem no_infix_replace (old new : Text) (h : old ≠ [])
    (hlen : old.length ≤ new.length + 1)
    (h1 : ¬ old <:+: new)
    (h2 : ∀ k, k < old.length → 0 < k → ¬ old.drop k <+: new)
    (h3 : ∀ k, k < old.length → 0 < k → ¬ old.take k <:+ new) :
    ∀ t, ¬ old <:+: bytesReplace t old new := by
  have pb := prefix_of_prefix_replace old new h hlen h2
  apply bytesReplace_induction old h
  · intro hx
    rw [bytesReplace_nil _ _ h] at hx
    exact h (List.infix_nil.mp hx)
  · intro v ih hx
    rw [bytesReplace_append_old _ _ _ h] at hx
    rcases infix_append_cases hx with hn | hv | ⟨k, hk0, hk, hs, _⟩
    · exact h1 hn
    · exact ih hv
    · exact h3 k hk hk0 hs
  · intro c s hnp ih hx
    rw [bytesReplace_cons _ _ _ _ h hnp] at hx
    rcases List.infix_cons_iff.mp hx with hp | hi
    · rw [← bytesReplace_cons _ _ _ _ h hnp] at hp
      have := pb (c :: s) 0 (by simpa using hp)
      exact hnp (by simpa using this)
    · exact ih hi

theorem descriptor_no_overlap_drop :
    ∀ k, k < descriptorProto.length → 0 < k → ¬ descriptorProto.drop k <+: descriptorpb := by
  decide

theorem descriptor_no_overlap_take :
    ∀ k, k < descriptorProto.length → 0 < k → ¬ descriptorProto.take k <:+ descriptorpb := by
  decide

theorem descriptor_not_in_canonical : ¬ descriptorProto <:+: descriptorpb := by
  decide

theorem bytesReplace_of_not_infix (old new : Text) (h : old ≠ []) :
    ∀ t, ¬ old <:+: t → bytesReplace t old new = t := by
  intro t
  induction t with
  | nil => intro _; exact bytesReplace_nil _ _ h
  | cons c s ih =>
    intro hn
    rw [List.infix_cons_iff, not_or] at hn
    rw [bytesReplace_cons _ _ _ _ h hn.1, ih hn.2]

/-- A pattern no proper suffix of which starts the pattern again does not
start inside a text free of it that is followed by an occurrence. -/
theorem not_prefix_before_occurrence (old : Text)
    (hub : ∀ k, k < old.length → 0 < k → ¬ old.drop k <+: old)
    (u post : Text) (hu : u ≠ []) (hn : ¬ old <+: u) : ¬ old <+: u ++ (old ++ post) := by
  intro hp2
  rcases Nat.lt_or_ge u.length old.length with hlt | hge
  · have h1 : u <+: old :=
      List.prefix_of_prefix_length_le (List.prefix_append _ _) hp2 (Nat.le_of_lt hlt)
    obtain ⟨w, hw⟩ := h1
    have hp3 : u ++ w <+: u ++ (old ++ post) := by
      rw [hw]; exact hp2
    rw [List.prefix_append_right_inj] at hp3
    have hwl : w.length ≤ old.length := by
      have := congrArg List.length hw
      simp only [List.length_append] at this
      omega
    have h2 : w <+: old :=
      List.prefix_of_prefix_length_le hp3 (List.prefix_append _ _) hwl
    apply hub u.length hlt (List.length_pos.mpr hu)
    have hd : old.drop u.length = w := by
      have := congrArg (List.drop u.length) hw
      rw [List.drop_left] at this
      exact this.symm
    rw [hd]; exact h2
  · exact hn (List.prefix_of_prefix_length_le hp2 (List.prefix_append _ _) hge)

/-- The leftmost occurrence is replaced and the text before it is kept, for a
pattern no proper suffix of which starts the pattern again. -/
theorem bytesReplace_first (old new : Text) (h : old ≠ [])
    (hub : ∀ k, k < old.length → 0 < k → ¬ old.drop k <+: old) :
    ∀ pre post, ¬ old <:+: pre →
      bytesReplace (pre ++ old ++ post) old new = pre ++ new ++ bytesReplace post old new := by
  intro pre post
  induction pre with
  | nil => intro _; simpa using bytesReplace_append_old old new post h
  | cons c pre ih =>
    intro hn
    rw [List.infix_cons_iff, not_or] at hn
    have hnp : ¬ old <+: c :: (pre ++ old ++ post) := by
      have := not_prefix_before_occurrence old hub (c :: pre) post (by simp) hn.1
      simpa using this
    have := bytesReplace_cons old new c (pre ++ old ++ post) h hnp
    simp only [List.cons_append] at this ⊢
    rw [this, ih hn.2]

/-! ## Lemmas: stretches of the scan -/

theorem replaceScan_nil (m : Text → Option Nat) (r : Text → Text) (k : Nat) :
    replaceScan m r k [] = [] := by
  cases k <;> rfl

/-- The scan keeps a stretch of text in which no match starts. -/
theorem replaceScan_keep_prefix (m : Text → Option Nat) (r : Text → Text) :
    ∀ pre rest : Text, (∀ u v, pre = u ++ v → v ≠ [] → m (v ++ rest) = none) →
      replaceScan m r 0 (pre ++ rest) = pre ++ replaceScan m r 0 rest := by
  intro pre rest
  induction pre with
  | nil => intro _; rfl
  | cons c pre ih =>
    intro h
    have h0 : m (c :: (pre ++ rest)) = none := h [] (c :: pre) rfl (by simp)
    rw [List.cons_append, replaceScan_cons_none m r c _ h0, ih]
    · rfl
    · intro u v huv hv
      exact h (c :: u) v (by simp [huv]) hv

/-- The scan of a concatenation is the concatenation of the scans when the
matches that start in the left part are the same with and without the right
part and end inside the left part. -/
theorem replaceScan_append (m : Text → Option Nat) (r : Text → Text) (rest : Text) :
    ∀ pre : Text,
      (∀ u v, pre = u ++ v → v ≠ [] →
        m (v ++ rest) = m v ∧ ∀ n, m v = some n → n ≤ v.length) →
      replaceScan m r 0 (pre ++ rest) = replaceScan m r 0 pre ++ replaceScan m r 0 rest := by
  have key : ∀ n (pre : Text), pre.length ≤ n →
      (∀ u v, pre = u ++ v → v ≠ [] →
        m (v ++ rest) = m v ∧ ∀ n, m v = some n → n ≤ v.length) →
      replaceScan m r 0 (pre ++ rest) = replaceScan m r 0 pre ++ replaceScan m r 0 rest := by
    intro n
    induction n with
    | zero =>
      intro pre hl _
      have : pre = [] := List.length_eq_zero.mp (Nat.le_zero.mp hl)
      subst this
      simp [replaceScan]
    | succ n ih =>
      intro pre hl h
      cases pre with
      | nil => simp [replaceScan]
      | cons c s =>
        have hs : ∀ u v, s = u ++ v → v ≠ [] →
            m (v ++ rest) = m v ∧ ∀ n, m v = some n → n ≤ v.length :=
          fun u v huv hv => h (c :: u) v (by simp [huv]) hv
        obtain ⟨h0, hle⟩ := h [] (c :: s) rfl (by simp)
        rw [List.cons_append] at h0
        cases hm : m (c :: s) with
        | none =>
          rw [hm] at h0
          rw [List.cons_append, replaceScan_cons_none m r c _ h0,
            replaceScan_cons_none m r c _ hm, ih s (by simpa using hl) hs]
          rfl
        | some k =>
          rw [hm] at h0
          cases k with
          | zero =>
            have e1 : replaceScan m r 0 (c :: (s ++ rest)) = c :: replaceScan m r 0 (s ++ rest) := by
              simp only [replaceScan]
              rw [show m (c :: (s ++ rest)) = some 0 from h0]
            have e2 : replaceScan m r 0 (c :: s) = c :: replaceScan m r 0 s := by
              simp only [replaceScan]
              rw [hm]
            rw [List.cons_append, e1, e2, ih s (by simpa using hl) hs]
            rfl
          | succ k =>
            have hk : k + 1 ≤ (c :: s).length := hle _ hm
            rw [← List.cons_append] at h0
            rw [replaceScan_match m r (c :: s ++ rest) (k + 1) h0 (by omega) (by simp),
              replaceScan_match m r (c :: s) (k + 1) hm (by omega) (by simp)]
            rw [List.take_append_of_le_length hk, List.drop_append_of_le_length hk]
            rw [ih ((c :: s).drop (k + 1))]
            · simp
            · simp only [List.length_drop, List.length_cons] at hl ⊢
              omega
            · intro u v huv hv
              refine h ((c :: s).take (k + 1) ++ u) v ?_ hv
              rw [List.append_assoc, ← huv, List.take_append_drop]
  exact fun pre => key pre.length pre (Nat.le_refl _)

/-- Decomposition of the scan: the text is a sequence of stretches, each a
kept text followed by a match, and a kept rest; the result is the same
sequence with each match replaced; each match is the match the pattern has at
that place of the text; and no match starts inside a kept text or inside the
rest. -/
theorem replaceScan_segments (m : Text → Option Nat) (r : Text → Text)
    (hm : ∀ t n, m t = some n → 0 < n ∧ n ≤ t.length) :
    ∀ t : Text, ∃ (segs : List (Text × Text)) (rest : Text),
      t = (segs.map fun p => p.1 ++ p.2).flatten ++ rest ∧
      replaceScan m r 0 t = (segs.map fun p => p.1 ++ r p.2).flatten ++ rest ∧
      (∀ l1 p l2, segs = l1 ++ p :: l2 →
        m (p.2 ++ ((l2.map fun p => p.1 ++ p.2).flatten ++ rest)) = some p.2.length) ∧
      (∀ l1 p l2, segs = l1 ++ p :: l2 → ∀ u v, p.1 = u ++ v → v ≠ [] →
        m (v ++ p.2 ++ ((l2.map fun p => p.1 ++ p.2).flatten ++ rest)) = none) ∧
      (∀ u v, rest = u ++ v → v ≠ [] → m v = none) := by
  have key : ∀ n (t : Text), t.length ≤ n → ∃ (segs : List (Text × Text)) (rest : Text),
      t = (segs.map fun p => p.1 ++ p.2).flatten ++ rest ∧
      replaceScan m r 0 t = (segs.map fun p => p.1 ++ r p.2).flatten ++ rest ∧
      (∀ l1 p l2, segs = l1 ++ p :: l2 →
        m (p.2 ++ ((l2.map fun p => p.1 ++ p.2).flatten ++ rest)) = some p.2.length) ∧
      (∀ l1 p l2, segs = l1 ++ p :: l2 → ∀ u v, p.1 = u ++ v → v ≠ [] →
        m (v ++ p.2 ++ ((l2.map fun p => p.1 ++ p.2).flatten ++ rest)) = none) ∧
      (∀ u v, rest = u ++ v → v ≠ [] → m v = none) := by
    intro n
    induction n with
    | zero =>
      intro t hl
      have : t = [] := List.length_eq_zero.mp (Nat.le_zero.mp hl)
      subst this
      refine ⟨[], [], by simp, by simp [replaceScan], by simp, by simp, ?_⟩
      intro u v huv hv
      have h0 : u ++ v = [] := huv.symm
      exact absurd (List.append_eq_nil.mp h0).2 hv
    | succ n ih =>
      intro t hl
      cases t with
      | nil =>
        refine ⟨[], [], by simp, by simp [replaceScan], by simp, by simp, ?_⟩
        intro u v huv hv
        have h0 : u ++ v = [] := huv.symm
        exact absurd (List.append_eq_nil.mp h0).2 hv
      | cons c s =>
        cases hmt : m (c :: s) with
        | none =>
          have e := replaceScan_cons_none m r c s hmt
          obtain ⟨segs, rest, h1, h2, h3, h4, h5⟩ := ih s (by simpa using hl)
          cases segs with
          | nil =>
            have hs : s = rest := by simpa using h1
            refine ⟨[], c :: rest, ?_, ?_, by simp, by simp, ?_⟩
            · simpa using h1
            · rw [e, h2]; simp
            · intro u v huv hv
              cases u with
              | nil =>
                have hv2 : v = c :: rest := by simpa using huv.symm
                rw [hv2, ← hs]; exact hmt
              | cons a u =>
                simp only [List.cons_append, List.cons.injEq] at huv
                exact h5 u v huv.2 hv
          | cons p ps =>
            refine ⟨(c :: p.1, p.2) :: ps, rest, ?_, ?_, ?_, ?_, h5⟩
            · rw [h1]; simp
            · rw [e, h2]; simp
            · intro l1 q l2 hsplit
              cases l1 with
              | nil =>
                simp only [List.nil_append, List.cons.injEq] at hsplit
                obtain ⟨hq, hl2⟩ := hsplit
                subst hq
                subst hl2
                exact h3 [] p ps rfl
              | cons q0 l1 =>
                simp only [List.cons_append, List.cons.injEq] at hsplit
                obtain ⟨_, hps⟩ := hsplit
                exact h3 (p :: l1) q l2 (by rw [hps]; simp)
            · intro l1 q l2 hsplit u v huv hv
              cases l1 with
              | nil =>
                simp only [List.nil_append, List.cons.injEq] at hsplit
                obtain ⟨hq, hl2⟩ := hsplit
                subst hq
                subst hl2
                cases u with
                | nil =>
                  have hv2 : v = c :: p.1 := by simpa using huv.symm
                  have hs : c :: s = v ++ p.2 ++ ((ps.map fun p => p.1 ++ p.2).flatten ++ rest) := by
                    rw [hv2, h1]; simp
                  rw [← hs]; exact hmt
                | cons a u =>
                  simp only [List.cons_append, List.cons.injEq] at huv
                  exact h4 [] p ps rfl u v huv.2 hv
              | cons q0 l1 =>
                simp only [List.cons_append, List.cons.injEq] at hsplit
                obtain ⟨_, hps⟩ := hsplit
                exact h4 (p :: l1) q l2 (by rw [hps]; simp) u v huv hv
        | some k =>
          obtain ⟨hk0, hk⟩ := hm _ _ hmt
          obtain ⟨segs, rest, h1, h2, h3, h4, h5⟩ := ih ((c :: s).drop k) (by
            simp only [List.length_drop, List.length_cons] at hl ⊢
            omega)
          refine ⟨([], (c :: s).take k) :: segs, rest, ?_, ?_, ?_, ?_, h5⟩
          · have := List.take_append_drop k (c :: s)
            rw [h1] at this
            simpa [List.append_assoc] using this.symm
          · rw [replaceScan_match m r (c :: s) k hmt hk0 (by simp), h2]
            simp
          · intro l1 q l2 hsplit
            cases l1 with
            | nil =>
              simp only [List.nil_append, List.cons.injEq] at hsplit
              obtain ⟨hq, hl2⟩ := hsplit
              subst hq
              subst hl2
              simp only
              rw [← h1, List.take_append_drop, hmt, List.length_take]
              congr 1
              omega
            | cons q0 l1 =>
              simp only [List.cons_append, List.cons.injEq] at hsplit
              obtain ⟨_, hps⟩ := hsplit
              exact h3 l1 q l2 hps
          · intro l1 q l2 hsplit u v huv hv
            cases l1 with
            | nil =>
              simp only [List.nil_append, List.cons.injEq] at hsplit
              obtain ⟨hq, _⟩ := hsplit
              subst hq
              have h0 : u ++ v = [] := huv.symm
              exact absurd (List.append_eq_nil.mp h0).2 hv
            | cons q0 l1 =>
              simp only [List.cons_append, List.cons.injEq] at hsplit
              obtain ⟨_, hps⟩ := hsplit
              exact h4 l1 q l2 hps u v huv hv
  exact fun t => key t.length t (Nat.le_refl _)

/-- A match of `package \w+` is `package `, then a non-empty run of word
characters, and the run is complete: what follows does not start with a word
character. -/
theorem pkgRegex_extent (t : Text) (n : Nat) (h : pkgRegex t = some n) :
    ∃ w F, t = "package ".toList ++ w ++ F ∧ n = 8 + w.length ∧ w ≠ [] ∧
      (∀ c ∈ w, isWordChar c = true) ∧ ∀ c, F.head? = some c → isWordChar c = false := by
  unfold pkgRegex at h
  by_cases hp : "package ".toList.isPrefixOf t = true
  · rw [if_pos hp] at h
    by_cases hw : (t.drop 8).takeWhile isWordChar = []
    · simp [hw] at h
    · simp only [hw, if_false, Option.some.injEq] at h
      obtain ⟨t1, ht1⟩ := List.isPrefixOf_iff_prefix.mp hp
      have hd : t.drop 8 = t1 := by
        rw [← ht1]; exact List.drop_left' rfl
      rw [hd] at h hw
      refine ⟨t1.takeWhile isWordChar, t1.dropWhile isWordChar, ?_, h.symm, hw, ?_, ?_⟩
      · rw [List.append_assoc, List.takeWhile_append_dropWhile, ht1]
      · intro c hc
        exact List.mem_takeWhile_imp hc
      · intro c hc
        cases hdw : t1.dropWhile isWordChar with
        | nil => rw [hdw] at hc; simp at hc
        | cons x xs =>
          rw [hdw] at hc
          simp only [List.head?_cons, Option.some.injEq] at hc
          have := List.head_dropWhile_not isWordChar t1 (by rw [hdw]; simp)
          simp only [hdw, List.head_cons] at this
          rw [← hc]
          simpa using this
  · rw [if_neg hp] at h
    exact absurd h (by simp)

/-! ## Lemmas: the regular expressions and the path helpers -/

theorem takeWhile_append_stop (p : Char → Bool) (X post : Text)
    (hX : ∀ c ∈ X, p c = true) (hpost : ∀ c, post.head? = some c → p c = false) :
    (X ++ post).takeWhile p = X := by
  induction X with
  | nil =>
    cases post with
    | nil => rfl
    | cons c post => simp [List.takeWhile, hpost c rfl]
  | cons a X ih =>
    rw [List.cons_append, List.takeWhile_cons, hX a (by simp), if_pos rfl,
      ih (fun c hc => hX c (by simp [hc]))]

theorem takeWhile_append_cons_stop (p : Char → Bool) (w : Text) (c : Char) (rest : Text)
    (hc : p c = false) : (w ++ c :: rest).takeWhile p = w.takeWhile p := by
  induction w with
  | nil => simp [List.takeWhile, hc]
  | cons a w ih =>
    simp only [List.cons_append, List.takeWhile]
    cases p a <;> simp [ih]

theorem expandAux_no_dollar (mtch : Text) :
    ∀ (fuel : Nat) (t : Text), '$' ∉ t → expandAux uni mtch fuel t = t := by
  intro fuel
  induction fuel with
  | zero => intro t _; rfl
  | succ fuel ih =>
    intro t ht
    cases t with
    | nil => rfl
    | cons c t1 =>
      have hc : c ≠ '$' := fun h => ht (by simp [h])
      have ht1 : '$' ∉ t1 := fun h => ht (by simp [h])
      simp only [expandAux, bne_iff_ne, ne_eq, hc, not_false_eq_true, if_true]
      rw [ih t1 ht1]

theorem expand_no_dollar (template mtch : Text) (h : '$' ∉ template) :
    expand uni template mtch = template :=
  expandAux_no_dollar mtch _ _ h

theorem pkgRegex_miss (s : Text) (h : ¬ "package ".toList <+: s) :
    pkgRegex s = none := by
  unfold pkgRegex
  rw [if_neg]
  rw [List.isPrefixOf_iff_prefix]
  exact h

theorem pkgRegex_clause (X post : Text) (hX : X ≠ []) (hXw : ∀ c ∈ X, isWordChar c = true)
    (hpost : ∀ c, post.head? = some c → isWordChar c = false) :
    pkgRegex ("package ".toList ++ X ++ post) = some (8 + X.length) := by
  have hp : "package ".toList <+: "package ".toList ++ X ++ post := ⟨X ++ post, by simp⟩
  have hd : ("package ".toList ++ X ++ post).drop 8 = X ++ post := by
    rw [List.append_assoc]
    exact List.drop_left' rfl
  simp only [pkgRegex, List.isPrefixOf_iff_prefix, hp, if_true, hd]
  rw [takeWhile_append_stop isWordChar X post hXw hpost]
  simp [hX]

theorem pkgRegex_shape (t : Text) (n : Nat) (h : pkgRegex t = some n) :
    0 < n ∧ n ≤ t.length ∧ ∃ w, t.take n = "package ".toList ++ w ∧ w ≠ [] ∧
      ∀ c ∈ w, isWordChar c = true := by
  unfold pkgRegex at h
  by_cases hp : "package ".toList.isPrefixOf t = true
  · rw [if_pos hp] at h
    by_cases hw : (t.drop 8).takeWhile isWordChar = []
    · simp [hw] at h
    · simp only [hw, if_false, Option.some.injEq] at h
      obtain ⟨t1, ht1⟩ := List.isPrefixOf_iff_prefix.mp hp
      have hd : t.drop 8 = t1 := by
        rw [← ht1]; exact List.drop_left' rfl
      rw [hd] at h hw
      have hpre : t1.takeWhile isWordChar <+: t1 := List.takeWhile_prefix isWordChar
      have hlen : (t1.takeWhile isWordChar).length ≤ t1.length := hpre.length_le
      refine ⟨by omega, ?_, t1.takeWhile isWordChar, ?_, hw, ?_⟩
      · rw [← h, ← ht1, List.length_append]
        have : "package ".toList.length = 8 := rfl
        omega
      · rw [← h, ← ht1]
        rw [List.take_append_eq_append_take]
        have h8 : "package ".toList.length = 8 := rfl
        rw [List.take_of_length_le (by omega), h8, Nat.add_sub_cancel_left]
        congr 1
        exact (List.prefix_iff_eq_take.mp hpre).symm
      · intro c hc
        exact List.mem_takeWhile_imp hc
  · rw [if_neg hp] at h
    exact absurd h (by simp)

theorem package_unbordered :
    ∀ k, k < "package ".toList.length → 0 < k →
      ¬ "package ".toList.drop k <+: "package ".toList := by
  decide

theorem splitSep_of_not_mem (sep : Char) : ∀ p : Text, sep ∉ p → splitSep sep p = [p] := by
  intro p
  induction p with
  | nil => intro _; rfl
  | cons c p ih =>
    intro h
    have hc : c ≠ sep := fun e => h (by simp [e])
    have hp : sep ∉ p := fun e => h (by simp [e])
    simp [splitSep, hc, ih hp]

theorem splitSep_append_sep (sep : Char) (t : Text) :
    ∀ p : Text, sep ∉ p → splitSep sep (p ++ sep :: t) = p :: splitSep sep t := by
  intro p
  induction p with
  | nil => intro _; simp [splitSep]
  | cons c p ih =>
    intro h
    have hc : c ≠ sep := fun e => h (by simp [e])
    have hp : sep ∉ p := fun e => h (by simp [e])
    simp [splitSep, hc, ih hp]

theorem splitSep_joinPath : ∀ pieces : List Text, pieces ≠ [] → (∀ p ∈ pieces, '/' ∉ p) →
    splitSep '/' (joinPath pieces) = pieces := by
  intro pieces
  induction pieces with
  | nil => intro h; exact absurd rfl h
  | cons p ps ih =>
    intro _ hall
    cases ps with
    | nil =>
      simpa [joinPath, List.intercalate] using splitSep_of_not_mem '/' p (hall p (by simp))
    | cons q qs =>
      have e : joinPath (p :: q :: qs) = p ++ '/' :: joinPath (q :: qs) := by
        simp [joinPath, List.intercalate]
      rw [e, splitSep_append_sep '/' _ p (hall p (by simp)),
        ih (by simp) (fun x hx => hall x (by simp [hx]))]

theorem descriptor_unbordered :
    ∀ k, k < descriptorProto.length → 0 < k → ¬ descriptorProto.drop k <+: descriptorProto := by
  decide

theorem descriptorProto_ne_nil : descriptorProto ≠ [] := by decide

theorem inferPackageName_joinPath (front : List Text) (d base : Text)
    (hfront : ∀ p ∈ front, '/' ∉ p) (hd : '/' ∉ d) (hbase : '/' ∉ base) :
    inferPackageName (joinPath (front ++ [d, base])) = some d := by
  have hall : ∀ p ∈ front ++ [d, base], '/' ∉ p := by
    intro p hp
    rcases List.mem_append.mp hp with h | h
    · exact hfront p h
    · simp only [List.mem_cons, List.mem_singleton, List.not_mem_nil, or_false] at h
      rcases h with rfl | rfl
      · exact hd
      · exact hbase
  unfold inferPackageName
  rw [splitSep_joinPath _ (by simp) hall]
  have hl : (front ++ [d, base]).length = front.length + 2 := by simp
  simp only []
  rw [hl, if_neg (by omega), Nat.add_sub_cancel, List.get?_eq_getElem?,
    List.getElem?_append_right (Nat.le_refl _), Nat.sub_self]
  rfl

theorem fileDescriptorVarRegex_le (t : Text) (n : Nat) (h : fileDescriptorVarRegex t = some n) :
    n ≤ t.length := by
  unfold fileDescriptorVarRegex at h
  by_cases hp : "fileDescriptor".toList.isPrefixOf t = true
  · rw [if_pos hp] at h
    by_cases hw : (t.drop 14).takeWhile isDigitChar = []
    · simp [hw] at h
    · simp only [hw, if_false, Option.some.injEq] at h
      obtain ⟨t1, ht1⟩ := List.isPrefixOf_iff_prefix.mp hp
      have hd : t.drop 14 = t1 := by
        rw [← ht1]; exact List.drop_left' rfl
      rw [hd] at h
      have hlen : (t1.takeWhile isDigitChar).length ≤ t1.length :=
        (List.takeWhile_prefix isDigitChar).length_le
      rw [← h, ← ht1, List.length_append]
      have : "fileDescriptor".toList.length = 14 := rfl
      omega
  · rw [if_neg hp] at h
    exact absurd h (by simp)

theorem fileDescriptorVarRegex_symbol (digits post : Text) (hD : digits ≠ [])
    (hDd : ∀ c ∈ digits, isDigitChar c = true)
    (hpost : ∀ c, post.head? = some c → isDigitChar c = false) :
    fileDescriptorVarRegex ("fileDescriptor".toList ++ digits ++ post)
      = some (14 + digits.length) := by
  have hp : "fileDescriptor".toList <+: "fileDescriptor".toList ++ digits ++ post :=
    ⟨digits ++ post, by simp⟩
  have hd : ("fileDescriptor".toList ++ digits ++ post).drop 14 = digits ++ post := by
    rw [List.append_assoc]
    exact List.drop_left' rfl
  simp only [fileDescriptorVarRegex, List.isPrefixOf_iff_prefix, hp, if_true, hd]
  rw [takeWhile_append_stop isDigitChar digits post hDd hpost]
  simp [hD]

theorem fileBaseName_dir (dir b ext : Text) (hb1 : '/' ∉ b) (hb2 : '.' ∉ b)
    (hext : '/' ∉ ext) : fileBaseName (dir ++ '/' :: (b ++ '.' :: ext)) = b := by
  have hname : ∀ c ∈ (b ++ '.' :: ext).reverse, (c != '/') = true := by
    intro c hc
    rw [List.mem_reverse, List.mem_append, List.mem_cons] at hc
    rw [bne_iff_ne]
    rintro rfl
    rcases hc with h | h | h
    · exact hb1 h
    · exact absurd h (by decide)
    · exact hext h
  have hne : (b ++ '.' :: ext).reverse ≠ [] := by simp
  have hrev : (dir ++ '/' :: (b ++ '.' :: ext)).reverse
      = (b ++ '.' :: ext).reverse ++ '/' :: dir.reverse := by simp
  have hstrip : stripTrailingSep (dir ++ '/' :: (b ++ '.' :: ext))
      = dir ++ '/' :: (b ++ '.' :: ext) := by
    unfold stripTrailingSep
    rw [hrev]
    obtain ⟨c, tl, hct⟩ := List.exists_cons_of_ne_nil hne
    have hc : (c == '/') = false := by
      have := hname c (by rw [hct]; simp)
      rw [bne_iff_ne] at this
      simpa using this
    rw [hct, List.cons_append, List.dropWhile_cons_of_neg (by simp [hc]), ← List.cons_append,
      ← hct, ← hrev, List.reverse_reverse]
  have hlast : ((dir ++ '/' :: (b ++ '.' :: ext)).reverse.takeWhile (fun c => c != '/')).reverse
      = b ++ '.' :: ext := by
    rw [hrev, takeWhile_append_stop (fun c => c != '/') _ ('/' :: dir.reverse) hname
      (by intro c hc; simp at hc; simp [← hc]), List.reverse_reverse]
  unfold fileBaseName Base
  rw [if_neg (by simp)]
  simp only [hstrip, hlast]
  rw [if_neg (by simp)]
  exact takeWhile_append_stop (fun c => c != '.') b ('.' :: ext)
    (by intro c hc; rw [bne_iff_ne]; rintro rfl; exact hb2 hc)
    (by intro c hc; simp at hc; simp [← hc])

/-! ## Lemmas: `GameCoordinator` -/

theorem testBit_two_pow_31 (i : Nat) : (2147483648 : Nat).testBit i = decide (31 = i) := by
  have : (2147483648 : Nat) = 2 ^ 31 := by norm_num
  rw [this, Nat.testBit_two_pow]

theorem registerAll_handlers {P W : Type} (hs : List (GCPacketHandler P W)) :
    ∀ g : GameCoordinator P W, (registerAll g hs).handlers = g.handlers ++ hs := by
  induction hs with
  | nil => intro g; simp [registerAll]
  | cons h hs ih =>
    intro g
    have := ih (g.RegisterPacketHandler h)
    simp only [registerAll, List.foldl_cons] at this ⊢
    rw [this]
    simp [GameCoordinator.RegisterPacketHandler]

theorem foldl_recorder {P : Type} (p : P) (ids : List Nat) :
    ∀ log : List (Nat × P),
      (ids.map recorder).foldl (fun w handler => handler p w) log
        = log ++ ids.map (fun i => (i, p)) := by
  induction ids with
  | nil => intro log; simp
  | cons i ids ih =>
    intro log
    simp only [List.map_cons, List.foldl_cons, ih, recorder]
    simp

/-! ## Lemmas: panics -/

theorem stripImports_isSome_iff : ∀ (l : List ImportSpec) (file : Text),
    (stripImports l file).isSome = true ↔ ∀ i ∈ l, i.Name.isSome = true := by
  intro l
  induction l with
  | nil => intro file; simp [stripImports]
  | cons itr rest ih =>
    intro file
    cases hn : itr.Name with
    | none => simp [stripImports, removeImport, hn]
    | some name => simp [stripImports, removeImport, hn, ih]

theorem splitSep_ne_nil (sep : Char) : ∀ s : Text, splitSep sep s ≠ [] := by
  intro s
  induction s with
  | nil => simp [splitSep]
  | cons c s ih =>
    unfold splitSep
    split
    · simp
    · split <;> simp

theorem splitSep_length (sep : Char) : ∀ s : Text,
    (splitSep sep s).length = s.count sep + 1 := by
  intro s
  induction s with
  | nil => simp [splitSep]
  | cons c s ih =>
    unfold splitSep
    by_cases hc : c = sep
    · rw [if_pos hc, List.length_cons, ih, hc, List.count_cons_self]
    · rw [if_neg hc]
      have hcount : (c :: s).count sep = s.count sep := by
        rw [List.count_cons_of_ne (fun h => hc h.symm)]
      cases hs : splitSep sep s with
      | nil => exact absurd hs (splitSep_ne_nil sep s)
      | cons p ps =>
        rw [hs] at ih
        simp only [List.length_cons] at ih ⊢
        rw [hcount, ih]

theorem inferPackageName_isSome_iff (path : Text) :
    (inferPackageName path).isSome = true ↔ '/' ∈ path := by
  unfold inferPackageName
  simp only []
  rw [← List.count_pos_iff (a := '/')]
  have hl := splitSep_length '/' path
  by_cases hc : 0 < path.count '/'
  · rw [if_neg (by omega)]
    simp only [hc, iff_true]
    rw [List.get?_eq_getElem?, Option.isSome_iff_exists]
    exact ⟨_, List.getElem?_eq_getElem (by omega)⟩
  · rw [if_pos (by omega)]
    simp [hc]

/-! ## Lemmas: `quotedWriter` -/

theorem quoteLines_append (s t : Text) : quoteLines (s ++ t) = quoteLines s ++ quoteLines t := by
  simp [quoteLines]

theorem quoteLines_of_no_newline : ∀ s : Text, '\n' ∉ s → quoteLines s = s := by
  intro s
  induction s with
  | nil => intro _; rfl
  | cons c s ih =>
    intro h
    have hc : c ≠ '\n' := fun e => h (by simp [e])
    have hs : '\n' ∉ s := fun e => h (by simp [e])
    have := ih hs
    simp only [quoteLines, List.flatMap_cons, hc, if_false] at this ⊢
    rw [this]
    rfl

/-- Invariant of the loop of `Write`: `a` is the part of `p` already written,
`b` the part seen since (it holds no line break), `s` the part still to scan. -/
theorem writeLoop_spec (p : Text) : ∀ (s a b out : Text), p = a ++ b ++ s → '\n' ∉ b →
    ∃ a1 b1, p = a1 ++ b1 ∧ '\n' ∉ b1 ∧
      (writeLoop p (s.enumFrom (a.length + b.length)) (a.length, out)).1 = a1.length ∧
      (writeLoop p (s.enumFrom (a.length + b.length)) (a.length, out)).2 ++ b1
        = out ++ quoteLines (b ++ s) := by
  intro s
  induction s with
  | nil =>
    intro a b out hp hb
    refine ⟨a, b, by simpa using hp, hb, rfl, ?_⟩
    simp [writeLoop, quoteLines_of_no_newline b hb]
  | cons c s ih =>
    intro a b out hp hb
    by_cases hc : c = '\n'
    · subst hc
      have htake : (p.take (a.length + b.length + 1)).drop a.length = b ++ ['\n'] := by
        have e : p = (a ++ (b ++ ['\n'])) ++ s := by rw [hp]; simp
        rw [e, List.take_left' (by simp; omega), List.drop_left]
      have hstep : writeLoop p (('\n' :: s).enumFrom (a.length + b.length)) (a.length, out)
          = writeLoop p (s.enumFrom ((a ++ b ++ ['\n']).length + ([] : Text).length))
              ((a ++ b ++ ['\n']).length, out ++ (b ++ ['\n']) ++ marker) := by
        simp only [List.enumFrom_cons, writeLoop, if_true, htake]
        congr 2
        · simp; omega
        · simp
      obtain ⟨a1, b1, h1, h2, h3, h4⟩ :=
        ih (a ++ b ++ ['\n']) [] (out ++ (b ++ ['\n']) ++ marker) (by rw [hp]; simp) (by simp)
      refine ⟨a1, b1, h1, h2, ?_, ?_⟩
      · rw [hstep]; exact h3
      · rw [hstep, h4, quoteLines_append b, quoteLines_of_no_newline b hb]
        simp [quoteLines, marker]
    · have hb2 : '\n' ∉ b ++ [c] := by
        intro h
        rcases List.mem_append.mp h with h | h
        · exact hb h
        · simp at h
          exact hc h.symm
      have hstep : writeLoop p ((c :: s).enumFrom (a.length + b.length)) (a.length, out)
          = writeLoop p (s.enumFrom (a.length + (b ++ [c]).length)) (a.length, out) := by
        simp only [List.enumFrom_cons, writeLoop, hc, if_false]
        congr 2
        simp; omega
      obtain ⟨a1, b1, h1, h2, h3, h4⟩ := ih a (b ++ [c]) out (by rw [hp]; simp) hb2
      refine ⟨a1, b1, h1, h2, ?_, ?_⟩
      · rw [hstep]; exact h3
      · rw [hstep, h4]; simp

/-- One `Write`: the marker first if nothing was written before, then the
slice with the marker after every line break; the count returned is the
length of the slice. -/
theorem Write_spec (q : quotedWriter) (p : Text) :
    (q.Write p).1 = ⟨(if q.started then q.w else q.w ++ marker) ++ quoteLines p, true⟩ ∧
    (q.Write p).2 = p.length := by
  obtain ⟨a1, b1, h1, _, h3, h4⟩ :=
    writeLoop_spec p p [] [] (if q.started then q.w else q.w ++ marker) (by simp) (by simp)
  simp only [List.length_nil, Nat.add_zero, List.nil_append] at h3 h4
  have hen : p.enum = p.enumFrom 0 := rfl
  have hdrop : p.drop a1.length = b1 := by rw [h1, List.drop_left]
  have hlen : p.length = a1.length + b1.length := by rw [h1, List.length_append]
  unfold quotedWriter.Write
  simp only [hen, h3, hdrop]
  by_cases hb : b1 = []
  · subst hb
    rw [if_neg (by simp [hlen])]
    simp only [List.append_nil] at h4
    simp [h4, hlen]
  · have : a1.length ≠ p.length := by
      have := List.length_pos.mpr hb
      omega
    rw [if_pos this]
    simp [h4, hlen]

theorem writeAll_started (ps : List Text) : ∀ q : quotedWriter, q.started = true →
    writeAll q ps = ⟨q.w ++ quoteLines ps.flatten, true⟩ := by
  induction ps with
  | nil =>
    intro q hq
    cases q
    simp_all [writeAll, quoteLines]
  | cons p ps ih =>
    intro q hq
    have h := (Write_spec q p).1
    rw [hq, if_pos rfl] at h
    have := ih (q.Write p).1 (by rw [h])
    simp only [writeAll, List.foldl_cons] at this ⊢
    rw [this, h]
    simp [quoteLines_append]

theorem writeAll_fresh (ps : List Text) (h : ps ≠ []) :
    (writeAll newQuotedWriter ps).w = marker ++ quoteLines ps.flatten := by
  obtain ⟨p, rest, rfl⟩ := List.exists_cons_of_ne_nil h
  have h1 := (Write_spec newQuotedWriter p).1
  have h2 := writeAll_started rest (newQuotedWriter.Write p).1 (by rw [h1])
  simp only [writeAll, List.foldl_cons] at h2 ⊢
  rw [h2, h1]
  simp [newQuotedWriter, quoteLines_append]

/-! ## Lemmas: patterns that cannot run across a given word -/

/-- A pattern that starts in `v` and runs on into `rest` has `v` as its
beginning and continues at the head of `rest`. -/
theorem straddle_drop {P v rest : Text} (h : P <+: v ++ rest) (hl : v.length < P.length) :
    P.drop v.length <+: rest ∧ P.take v.length = v := by
  have hv : v <+: P :=
    List.prefix_of_prefix_length_le (List.prefix_append _ _) h (Nat.le_of_lt hl)
  obtain ⟨w, rfl⟩ := hv
  rw [List.prefix_append_right_inj] at h
  rw [List.drop_left, List.take_left]
  exact ⟨h, rfl⟩

/-- No occurrence of `P` that starts before the word `W` runs into it, when no
proper, non-empty end piece of `P` is comparable with `W`. -/
theorem prefix_append_barrier (P W : Text)
    (hinc : ∀ k, k < P.length → 0 < k → ¬ P.drop k <+: W ∧ ¬ W <+: P.drop k)
    (v rest : Text) (hv : v ≠ []) : P <+: v ++ (W ++ rest) ↔ P <+: v := by
  constructor
  · intro h
    rcases Nat.lt_or_ge v.length P.length with hlt | hge
    · exfalso
      obtain ⟨h1, _⟩ := straddle_drop h hlt
      obtain ⟨n1, n2⟩ := hinc v.length hlt (List.length_pos.mpr hv)
      rcases List.prefix_or_prefix_of_prefix h1 (List.prefix_append W rest) with h3 | h3
      · exact n1 h3
      · exact n2 h3
    · exact List.prefix_of_prefix_length_le h (List.prefix_append _ _) hge
  · intro h
    exact h.trans (List.prefix_append _ _)

theorem bytesReplace_append_barrier (P new W : Text) (hP : P ≠ [])
    (hinc : ∀ k, k < P.length → 0 < k → ¬ P.drop k <+: W ∧ ¬ W <+: P.drop k)
    (u rest : Text) :
    bytesReplace (u ++ (W ++ rest)) P new
      = bytesReplace u P new ++ bytesReplace (W ++ rest) P new := by
  obtain ⟨a, P1, rfl⟩ := List.exists_cons_of_ne_nil hP
  simp only [bytesReplace]
  apply replaceScan_append
  intro u1 v _ hv
  have hiff := prefix_append_barrier (a :: P1) W hinc v rest hv
  refine ⟨?_, ?_⟩
  · unfold literalMatch
    simp only [List.isPrefixOf_iff_prefix, hiff]
  · intro n hn
    unfold literalMatch at hn
    by_cases hp : (a :: P1).isPrefixOf v = true
    · rw [if_pos hp] at hn
      rw [← Option.some.inj hn]
      exact (List.isPrefixOf_iff_prefix.mp hp).length_le
    · rw [if_neg hp] at hn
      exact absurd hn (by simp)

theorem bytesReplace_keep (P new : Text) (hP : P ≠ []) (pre rest : Text)
    (h : ∀ u v, pre = u ++ v → v ≠ [] → ¬ P <+: v ++ rest) :
    bytesReplace (pre ++ rest) P new = pre ++ bytesReplace rest P new := by
  obtain ⟨a, P1, rfl⟩ := List.exists_cons_of_ne_nil hP
  simp only [bytesReplace]
  apply replaceScan_keep_prefix
  intro u v huv hv
  exact literalMatch_miss _ _ (h u v huv hv)

theorem fileDescriptorVarRegex_miss (s : Text) (h : ¬ "fileDescriptor".toList <+: s) :
    fileDescriptorVarRegex s = none := by
  unfold fileDescriptorVarRegex
  rw [if_neg]
  rw [List.isPrefixOf_iff_prefix]
  exact h

/-- A match of `fileDescriptor\d+` that starts before a word `c :: W`, `c` not
a digit, which the pattern cannot run across, is the same with and without the
text from that word on. -/
theorem fileDescriptorVarRegex_barrier (c : Char) (W : Text) (hc : isDigitChar c = false)
    (hinc : ∀ k, k < "fileDescriptor".toList.length → 0 < k →
      ¬ "fileDescriptor".toList.drop k <+: c :: W ∧ ¬ c :: W <+: "fileDescriptor".toList.drop k)
    (v rest : Text) (hv : v ≠ []) :
    fileDescriptorVarRegex (v ++ (c :: W ++ rest)) = fileDescriptorVarRegex v := by
  have hiff := prefix_append_barrier "fileDescriptor".toList (c :: W) hinc v rest hv
  by_cases hp : "fileDescriptor".toList <+: v
  · have hge : 14 ≤ v.length := hp.length_le
    have hdrop : (v ++ (c :: W ++ rest)).drop 14 = v.drop 14 ++ c :: (W ++ rest) := by
      rw [List.drop_append_of_le_length hge]; rfl
    unfold fileDescriptorVarRegex
    simp only [List.isPrefixOf_iff_prefix, hiff, hdrop]
    rw [takeWhile_append_cons_stop isDigitChar _ c _ hc]
  · rw [fileDescriptorVarRegex_miss _ hp, fileDescriptorVarRegex_miss _ (fun h => hp (hiff.mp h))]

theorem prefixFileDescriptors_append_barrier (b : Text) (c : Char) (W : Text)
    (hc : isDigitChar c = false)
    (hinc : ∀ k, k < "fileDescriptor".toList.length → 0 < k →
      ¬ "fileDescriptor".toList.drop k <+: c :: W ∧ ¬ c :: W <+: "fileDescriptor".toList.drop k)
    (u rest : Text) :
    prefixFileDescriptors b (u ++ (c :: W ++ rest))
      = prefixFileDescriptors b u ++ prefixFileDescriptors b (c :: W ++ rest) := by
  unfold prefixFileDescriptors
  apply replaceScan_append
  intro u1 v _ hv
  exact ⟨fileDescriptorVarRegex_barrier c W hc hinc v rest hv,
    fun n hn => fileDescriptorVarRegex_le v n hn⟩

theorem prefixFileDescriptors_keep (b pre rest : Text)
    (h : ∀ u v, pre = u ++ v → v ≠ [] → ¬ "fileDescriptor".toList <+: v ++ rest) :
    prefixFileDescriptors b (pre ++ rest) = pre ++ prefixFileDescriptors b rest := by
  unfold prefixFileDescriptors
  apply replaceScan_keep_prefix
  intro u v huv hv
  exact fileDescriptorVarRegex_miss _ (h u v huv hv)

theorem descriptor_package_incomparable :
    ∀ k, k < descriptorProto.length → 0 < k →
      ¬ descriptorProto.drop k <+: "package ".toList ∧
      ¬ "package ".toList <+: descriptorProto.drop k := by
  decide

theorem fileDescriptor_package_incomparable :
    ∀ k, k < "fileDescriptor".toList.length → 0 < k →
      ¬ "fileDescriptor".toList.drop k <+: 'p' :: "ackage ".toList ∧
      ¬ 'p' :: "ackage ".toList <+: "fileDescriptor".toList.drop k := by
  decide

theorem package_suffix_has_space :
    ∀ k, k < "package ".toList.length → " ".toList <:+: "package ".toList.drop k := by
  decide

/-- A pattern without a space that is longer than `package ` does not start
inside `package `. -/
theorem not_prefix_in_package (P : Text) (hsp : ¬ " ".toList <:+: P)
    (hlen : 8 < P.length) (u c1 w : Text) (hsplit : "package ".toList = u ++ c1)
    (hc1 : c1 ≠ []) : ¬ P <+: c1 ++ w := by
  intro h
  have hl : u.length + c1.length = 8 := by
    have := congrArg List.length hsplit
    rw [List.length_append] at this
    exact this.symm
  have hpos := List.length_pos.mpr hc1
  obtain ⟨_, htake⟩ := straddle_drop h (by omega)
  have hdrop : "package ".toList.drop u.length = c1 := by
    rw [hsplit, List.drop_left]
  have hsp2 := package_suffix_has_space u.length (by
    have : "package ".toList.length = 8 := rfl
    omega)
  rw [hdrop, ← htake] at hsp2
  exact hsp (hsp2.trans (List.take_prefix _ _).isInfix)

theorem descriptor_take_has_slash :
    ∀ k, k < descriptorProto.length → 7 ≤ k → '/' ∈ descriptorProto.take k := by
  decide

theorem descriptor_head_word_or_slash :
    ∀ k, k < 7 → 0 < k →
      (descriptorProto.drop k).head?.map (fun x => isWordChar x || x == '/') = some true := by
  decide

/-- The descriptor path does not start inside a path component that is
followed by a character other than a word character or a separator. -/
theorem descriptor_not_prefix_component (v R : Text) (hv : v ≠ []) (hs : '/' ∉ v)
    (hR : ∀ x, R.head? = some x → isWordChar x = false ∧ x ≠ '/') :
    ¬ descriptorProto <+: v ++ R := by
  intro h
  rcases Nat.lt_or_ge v.length descriptorProto.length with hlt | hge
  · obtain ⟨hdrop, htake⟩ := straddle_drop h hlt
    rcases Nat.lt_or_ge v.length 7 with h7 | h7
    · have hw := descriptor_head_word_or_slash v.length h7 (List.length_pos.mpr hv)
      cases hd : descriptorProto.drop v.length with
      | nil => rw [hd] at hw; simp at hw
      | cons x rest =>
        rw [hd] at hw hdrop
        obtain ⟨R1, hR1⟩ := hdrop
        have hx := hR x (by rw [← hR1]; rfl)
        simp only [List.head?_cons, Option.map_some', Option.some.injEq, Bool.or_eq_true,
          beq_iff_eq] at hw
        rcases hw with hw | hw
        · rw [hx.1] at hw; exact absurd hw (by simp)
        · exact hx.2 hw
    · have := descriptor_take_has_slash v.length hlt h7
      rw [htake] at this
      exact hs this
  · have hp : descriptorProto <+: v :=
      List.prefix_of_prefix_length_le h (List.prefix_append _ _) hge
    exact hs (hp.subset (by decide))

theorem fileDescriptor_head_word :
    ∀ k, k < "fileDescriptor".toList.length →
      ("fileDescriptor".toList.drop k).head?.map isWordChar = some true := by
  decide

/-- The pattern `fileDescriptor` does not start inside a text free of it that
is followed by a character other than a word character. -/
theorem fileDescriptor_not_prefix_component (v R : Text) (hv : ¬ "fileDescriptor".toList <+: v)
    (hR : ∀ x, R.head? = some x → isWordChar x = false) :
    ¬ "fileDescriptor".toList <+: v ++ R := by
  intro h
  rcases Nat.lt_or_ge v.length "fileDescriptor".toList.length with hlt | hge
  · obtain ⟨hdrop, _⟩ := straddle_drop h hlt
    have hw := fileDescriptor_head_word v.length hlt
    cases hd : "fileDescriptor".toList.drop v.length with
    | nil => rw [hd] at hw; simp at hw
    | cons x rest =>
      rw [hd] at hw hdrop
      obtain ⟨R1, hR1⟩ := hdrop
      have hx := hR x (by rw [← hR1]; rfl)
      simp only [List.head?_cons, Option.map_some', Option.some.injEq] at hw
      rw [hx] at hw
      exact absurd hw (by simp)
  · exact hv (List.prefix_of_prefix_length_le h (List.prefix_append _ _) hge)

theorem fixPackage_head (pkg post : Text) (hpost : ∀ x, post.head? = some x → isWordChar x = false) :
    (fixPackage uni pkg post).head? = post.head? := by
  cases post with
  | nil => rfl
  | cons c s =>
    have hc := hpost c rfl
    unfold fixPackage
    rw [replaceScan_cons_none pkgRegex _ c s (pkgRegex_miss _ (by
      intro h
      have h1 : "package ".toList = 'p' :: "ackage ".toList := rfl
      rw [h1, List.cons_prefix_cons] at h
      rw [← h.1] at hc
      exact absurd hc (by decide)))]
    rfl

theorem fixDescriptor_head (t : Text) (ht : ∀ x, t.head? = some x → isWordChar x = false) :
    (fixDescriptor t).head? = t.head? := by
  cases t with
  | nil => rfl
  | cons c s =>
    have hc := ht c rfl
    unfold fixDescriptor
    rw [bytesReplace_cons descriptorProto descriptorpb c s descriptorProto_ne_nil (by
      intro h
      have h1 : descriptorProto = 'g' :: "oogle/protobuf/descriptor.proto".toList := rfl
      rw [h1, List.cons_prefix_cons] at h
      rw [← h.1] at hc
      exact absurd hc (by decide))]
    rfl

/-- The package step on the leftmost clause: the text before it is kept, the
clause becomes `package pkg`, and the step goes on after it. -/
theorem fixPackage_clause (pkg pre X post : Text) (hdollar : '$' ∉ pkg)
    (hX : X ≠ []) (hXw : ∀ c ∈ X, isWordChar c = true)
    (hpost : ∀ c, post.head? = some c → isWordChar c = false)
    (hpre : ¬ "package ".toList <:+: pre) :
    fixPackage uni pkg (pre ++ "package ".toList ++ X ++ post)
      = pre ++ "package ".toList ++ pkg ++ fixPackage uni pkg post := by
  have hnone : ∀ u v, pre = u ++ v → v ≠ [] →
      pkgRegex (v ++ ("package ".toList ++ X ++ post)) = none := by
    intro u v huv hv
    apply pkgRegex_miss
    rw [List.append_assoc]
    apply not_prefix_before_occurrence _ package_unbordered v (X ++ post) hv
    intro hp
    apply hpre
    rw [huv]
    exact hp.isInfix.trans (List.suffix_append u v).isInfix
  have hm := pkgRegex_clause X post hX hXw hpost
  have htpl : '$' ∉ "package ".toList ++ pkg := by
    intro h
    rcases List.mem_append.mp h with h | h
    · exact absurd h (by decide)
    · exact hdollar h
  unfold fixPackage
  rw [List.append_assoc, List.append_assoc, ← List.append_assoc _ X post,
    replaceScan_keep_prefix pkgRegex _ pre _ hnone,
    replaceScan_match pkgRegex _ _ _ hm (by omega) (by simp),
    expand_no_dollar _ _ htpl]
  have h8 : "package ".toList.length = 8 := rfl
  have hdrop : ("package ".toList ++ X ++ post).drop (8 + X.length) = post := by
    apply List.drop_left'
    rw [List.length_append, h8]
  rw [hdrop]
  simp

/-- The repointing step leaves `package d` alone and works on the text before
and after it separately. -/
theorem fixDescriptor_around_clause (d pre R : Text) (hd : '/' ∉ d)
    (hR : ∀ x, R.head? = some x → isWordChar x = false ∧ x ≠ '/') :
    fixDescriptor (pre ++ "package ".toList ++ d ++ R)
      = fixDescriptor pre ++ "package ".toList ++ d ++ fixDescriptor R := by
  have hkeep : ∀ u v, "package ".toList ++ d = u ++ v → v ≠ [] →
      ¬ descriptorProto <+: v ++ R := by
    intro u v huv hv
    rcases List.append_eq_append_iff.mp huv with ⟨a1, _, hdv⟩ | ⟨c1, hsplit, hvc⟩
    · exact descriptor_not_prefix_component v R hv
        (fun h => hd (by rw [hdv]; exact List.mem_append_right _ h)) hR
    · by_cases hc1 : c1 = []
      · subst hc1
        rw [List.nil_append] at hvc
        rw [hvc]
        exact descriptor_not_prefix_component d R (by rw [← hvc]; exact hv) hd hR
      · rw [hvc, List.append_assoc]
        exact not_prefix_in_package descriptorProto (by decide) (by decide) u c1 (d ++ R)
          hsplit hc1
  unfold fixDescriptor
  rw [List.append_assoc, List.append_assoc,
    bytesReplace_append_barrier descriptorProto descriptorpb "package ".toList
      descriptorProto_ne_nil descriptor_package_incomparable pre (d ++ R),
    ← List.append_assoc "package ".toList d R,
    bytesReplace_keep descriptorProto descriptorpb descriptorProto_ne_nil _ R hkeep]
  simp

/-- The disambiguation step leaves `package d` alone and works on the text
before and after it separately. -/
theorem prefixFileDescriptors_around_clause (b d pre R : Text)
    (hdfd : ¬ "fileDescriptor".toList <:+: d)
    (hR : ∀ x, R.head? = some x → isWordChar x = false) :
    prefixFileDescriptors b (pre ++ "package ".toList ++ d ++ R)
      = prefixFileDescriptors b pre ++ "package ".toList ++ d ++ prefixFileDescriptors b R := by
  have hkeep : ∀ u v, "package ".toList ++ d = u ++ v → v ≠ [] →
      ¬ "fileDescriptor".toList <+: v ++ R := by
    intro u v huv hv
    rcases List.append_eq_append_iff.mp huv with ⟨a1, _, hdv⟩ | ⟨c1, hsplit, hvc⟩
    · apply fileDescriptor_not_prefix_component v R _ hR
      intro hp
      apply hdfd
      rw [hdv]
      exact hp.isInfix.trans (List.suffix_append a1 v).isInfix
    · by_cases hc1 : c1 = []
      · subst hc1
        rw [List.nil_append] at hvc
        rw [hvc]
        exact fileDescriptor_not_prefix_component d R (fun hp => hdfd hp.isInfix) hR
      · rw [hvc, List.append_assoc]
        exact not_prefix_in_package "fileDescriptor".toList (by decide) (by decide) u c1
          (d ++ R) hsplit hc1
  have hpk : "package ".toList = 'p' :: "ackage ".toList := rfl
  rw [List.append_assoc, List.append_assoc]
  have h1 := prefixFileDescriptors_append_barrier b 'p' "ackage ".toList (by decide)
    fileDescriptor_package_incomparable pre (d ++ R)
  rw [← hpk] at h1
  rw [h1, ← List.append_assoc "package ".toList d R,
    prefixFileDescriptors_keep b _ R hkeep]
  simp

theorem fileDescriptor_f_incomparable :
    ∀ k, k < "fileDescriptor".toList.length → 0 < k →
      ¬ "fileDescriptor".toList.drop k <+: ['f'] ∧
      ¬ ['f'] <+: "fileDescriptor".toList.drop k := by
  decide

/-- The disambiguation step on one symbol: the text before and after it is
rewritten on its own and the symbol gets the file name as prefix. -/
theorem prefixFileDescriptors_at_symbol (b pre digits post : Text)
    (hD : digits ≠ []) (hDd : ∀ c ∈ digits, isDigitChar c = true)
    (hpost : ∀ c, post.head? = some c → isDigitChar c = false) :
    prefixFileDescriptors b (pre ++ "fileDescriptor".toList ++ digits ++ post)
      = prefixFileDescriptors b pre ++ b ++ '_' :: "fileDescriptor".toList ++ digits ++
          prefixFileDescriptors b post := by
  have hm := fileDescriptorVarRegex_symbol digits post hD hDd hpost
  have h14 : "fileDescriptor".toList.length = 14 := rfl
  have hsym : "fileDescriptor".toList ++ (digits ++ post)
      = 'f' :: [] ++ ("ileDescriptor".toList ++ (digits ++ post)) := rfl
  rw [List.append_assoc, List.append_assoc, hsym,
    prefixFileDescriptors_append_barrier b 'f' [] (by decide) fileDescriptor_f_incomparable,
    ← hsym, ← List.append_assoc _ digits post]
  unfold prefixFileDescriptors
  rw [replaceScan_match fileDescriptorVarRegex _ _ _ hm (by omega) (by simp)]
  have htake : ("fileDescriptor".toList ++ digits ++ post).take (14 + digits.length)
      = "fileDescriptor".toList ++ digits := by
    apply List.take_left'
    rw [List.length_append, h14]
  have hdrop : ("fileDescriptor".toList ++ digits ++ post).drop (14 + digits.length) = post := by
    apply List.drop_left'
    rw [List.length_append, h14]
  rw [htake, hdrop]
  simp

theorem fileDescriptor_canonical_incomparable :
    ∀ k, k < "fileDescriptor".toList.length → 0 < k →
      ¬ "fileDescriptor".toList.drop k <+: 'g' :: "oogle.golang.org/protobuf/types/descriptorpb".toList ∧
      ¬ 'g' :: "oogle.golang.org/protobuf/types/descriptorpb".toList
          <+: "fileDescriptor".toList.drop k := by
  decide

theorem canonical_fileDescriptor_incomparable :
    ∀ k, k < descriptorpb.length →
      ¬ descriptorpb.drop k <+: "fileDescriptor".toList ∧
      ¬ "fileDescriptor".toList <+: descriptorpb.drop k := by
  decide

/-- The disambiguation step leaves the canonical descriptor path alone and
works on the text before and after it separately. -/
theorem prefixFileDescriptors_around_canonical (b pre post : Text) :
    prefixFileDescriptors b (pre ++ descriptorpb ++ post)
      = prefixFileDescriptors b pre ++ descriptorpb ++ prefixFileDescriptors b post := by
  have hkeep : ∀ u v, descriptorpb = u ++ v → v ≠ [] →
      ¬ "fileDescriptor".toList <+: v ++ post := by
    intro u v huv hv hp
    have hl : u.length < descriptorpb.length := by
      have := congrArg List.length huv
      rw [List.length_append] at this
      have := List.length_pos.mpr hv
      omega
    have hdrop : descriptorpb.drop u.length = v := by
      rw [huv, List.drop_left]
    obtain ⟨n1, n2⟩ := canonical_fileDescriptor_incomparable u.length hl
    rw [hdrop] at n1 n2
    rcases List.prefix_or_prefix_of_prefix hp (List.prefix_append v post) with h | h
    · exact n2 h
    · exact n1 h
  have hpb : descriptorpb = 'g' :: "oogle.golang.org/protobuf/types/descriptorpb".toList := rfl
  have h1 := prefixFileDescriptors_append_barrier b 'g'
    "oogle.golang.org/protobuf/types/descriptorpb".toList (by decide)
    fileDescriptor_canonical_incomparable pre post
  rw [← hpb] at h1
  rw [List.append_assoc, h1, prefixFileDescriptors_keep b descriptorpb post hkeep]
  simp

/-! ## Lemmas: texts that stay free of a pattern -/

theorem scanSafeAt_sound (P : Text) (m : Text → Option Nat) (r : Text → Text) (v : Text)
    (h : scanSafeAt P m r v = true) (n : Nat) (hm : m v = some n) :
    ¬ P <:+: r (v.take n) ∧
    (∀ k, 0 < k → k < P.length → ¬ P.drop k <+: r (v.take n)) ∧
    ((∀ c, (v.drop n).head? = some c → c ∉ P) ∨
      ∀ k, 0 < k → k < P.length →
        ¬ P.take k <:+ r (v.take n) ∧ ¬ r (v.take n) <+: P.drop k) := by
  unfold scanSafeAt at h
  rw [hm] at h
  simp only [Bool.and_eq_true, Bool.not_eq_true', List.all_eq_true, List.mem_range,
    Bool.or_eq_true, beq_iff_eq] at h
  obtain ⟨⟨h2, h3⟩, h4⟩ := h
  refine ⟨(containsSub_eq_false_iff _ _).mp h2, ?_, ?_⟩
  · intro k hk0 hkl hp
    rcases h3 k hkl with h0 | h0
    · omega
    · rw [← List.isPrefixOf_iff_prefix] at hp
      rw [hp] at h0
      exact absurd h0 (by simp)
  · rcases h4 with h1 | h5
    · left
      intro c hc hmem
      rw [hc] at h1
      simp only [Bool.not_eq_true', List.contains_eq_any_beq, List.any_eq_false,
        beq_iff_eq] at h1
      exact h1 c hmem rfl
    · right
      intro k hk0 hkl
      rcases h5 k hkl with h0 | ⟨h6, h7⟩
      · omega
      · constructor
        · intro hs
          rw [← List.isSuffixOf_iff_suffix] at hs
          rw [hs] at h6
          exact absurd h6 (by simp)
        · intro hp
          rw [← List.isPrefixOf_iff_prefix] at hp
          rw [hp] at h7
          exact absurd h7 (by simp)

theorem scanSafe_of_check (P : Text) (m : Text → Option Nat) (r : Text → Text) :
    ∀ t, scanSafeB P m r t = true → ScanSafe P m r t := by
  intro t
  induction t with
  | nil =>
    intro hchk u v n huv hm
    have h1 : u ++ v = [] := huv.symm
    have hv : v = [] := (List.append_eq_nil.mp h1).2
    subst hv
    exact scanSafeAt_sound P m r [] hchk n hm
  | cons a s ih =>
    intro hchk u v n huv hm
    rw [scanSafeB, Bool.and_eq_true] at hchk
    cases u with
    | nil =>
      have hv : v = a :: s := by simpa using huv.symm
      subst hv
      exact scanSafeAt_sound P m r _ hchk.1 n hm
    | cons b u =>
      have hs : s = u ++ v := by
        simp only [List.cons_append, List.cons.injEq] at huv
        exact huv.2
      exact ih hchk.2 u v n hs hm

theorem scanSafe_suffix {P : Text} {m : Text → Option Nat} {r : Text → Text} {u v : Text}
    (h : ScanSafe P m r (u ++ v)) : ScanSafe P m r v := by
  intro u1 v1 n huv
  exact h (u ++ u1) v1 n (by rw [huv, List.append_assoc])

/-- A proper end piece of `P` that starts the result of the scan already
starts the original text, when no replacement text is entered by `P` from the
left and every match is followed by a character foreign to `P`. -/
theorem replaceScan_pullback (P : Text) (m : Text → Option Nat) (r : Text → Text)
    (hm : ∀ t n, m t = some n → 0 < n ∧ n ≤ t.length) :
    ∀ t, ScanSafe P m r t →
      ∀ k, 0 < k → P.drop k <+: replaceScan m r 0 t → P.drop k <+: t := by
  have key : ∀ N (t : Text), t.length ≤ N → ScanSafe P m r t →
      ∀ k, 0 < k → P.drop k <+: replaceScan m r 0 t → P.drop k <+: t := by
    intro N
    induction N with
    | zero =>
      intro t hl _ k _ hx
      have : t = [] := List.length_eq_zero.mp (Nat.le_zero.mp hl)
      subst this
      simpa [replaceScan] using hx
    | succ N ih =>
      intro t hl hF k hk hx
      cases t with
      | nil => simpa [replaceScan] using hx
      | cons c s =>
        have hFs : ScanSafe P m r s := scanSafe_suffix (u := [c]) hF
        cases hmt : m (c :: s) with
        | none =>
          rw [replaceScan_cons_none m r c s hmt] at hx
          rcases List.prefix_cons_iff.mp hx with h0 | ⟨x1, hx1, hp⟩
          · rw [h0]; exact List.nil_prefix
          · have hd : P.drop (k + 1) = x1 := by
              have := congrArg (List.drop 1) hx1
              simpa [List.drop_drop, Nat.add_comm] using this
            rw [hx1, List.cons_prefix_cons]
            refine ⟨rfl, ?_⟩
            rw [← hd]
            apply ih s (by simpa using hl) hFs (k + 1) (by omega)
            rw [hd]
            exact hp
        | some n =>
          obtain ⟨hn0, hn⟩ := hm _ _ hmt
          obtain ⟨_, hnew, halt⟩ := hF [] (c :: s) n rfl hmt
          rw [replaceScan_match m r (c :: s) n hmt hn0 (by simp)] at hx
          rcases Nat.lt_or_ge k P.length with hkl | hkl
          · exfalso
            have hFd : ScanSafe P m r ((c :: s).drop n) :=
              scanSafe_suffix (u := (c :: s).take n)
                (by rw [List.take_append_drop]; exact hF)
            rcases Nat.le_total (P.drop k).length (r ((c :: s).take n)).length with hle | hle
            · exact hnew k hk hkl
                (List.prefix_of_prefix_length_le hx (List.prefix_append _ _) hle)
            · have hnp : r ((c :: s).take n) <+: P.drop k :=
                List.prefix_of_prefix_length_le (List.prefix_append _ _) hx hle
              obtain ⟨y, hy⟩ := hnp
              have hyx : y <+: replaceScan m r 0 ((c :: s).drop n) := by
                rw [← hy, List.prefix_append_right_inj] at hx
                exact hx
              have hyd : y = P.drop (k + (r ((c :: s).take n)).length) := by
                have := congrArg (List.drop (r ((c :: s).take n)).length) hy
                rw [List.drop_left, List.drop_drop] at this
                rw [this, Nat.add_comm]
              by_cases hy0 : y = []
              · rw [hy0, List.append_nil] at hy
                exact hnew k hk hkl (by rw [hy])
              · rcases halt with hfol | hB
                swap
                · exact (hB k hk hkl).2 ⟨y, hy⟩
                have hpre : y <+: (c :: s).drop n := by
                  rw [hyd]
                  apply ih ((c :: s).drop n) _ hFd _ (by omega)
                  · rw [← hyd]; exact hyx
                  · simp only [List.length_drop, List.length_cons] at hl ⊢
                    omega
                obtain ⟨d, y1, hdy⟩ := List.exists_cons_of_ne_nil hy0
                rw [hdy] at hpre
                obtain ⟨w, hw⟩ := hpre
                have hd : d ∈ P := by
                  have : d ∈ y := by rw [hdy]; simp
                  rw [hyd] at this
                  exact List.mem_of_mem_drop this
                exact hfol d (by rw [← hw]; rfl) hd
          · rw [List.drop_eq_nil_of_le hkl]
            exact List.nil_prefix
  exact fun t => key t.length t (Nat.le_refl _)

/-- A scan leaves the text free of `P` when the text is free of it and `P`
cannot arise from a replacement. -/
theorem replaceScan_stays_free (P : Text) (hP : P ≠ []) (m : Text → Option Nat)
    (r : Text → Text) (hm : ∀ t n, m t = some n → 0 < n ∧ n ≤ t.length) :
    ∀ t, ScanSafe P m r t → ¬ P <:+: t → ¬ P <:+: replaceScan m r 0 t := by
  have hpb := replaceScan_pullback P m r hm
  have key : ∀ N (t : Text), t.length ≤ N → ScanSafe P m r t →
      ¬ P <:+: t → ¬ P <:+: replaceScan m r 0 t := by
    intro N
    induction N with
    | zero =>
      intro t hl _ hnot
      have : t = [] := List.length_eq_zero.mp (Nat.le_zero.mp hl)
      subst this
      simpa [replaceScan] using hnot
    | succ N ih =>
      intro t hl hF hnot
      cases t with
      | nil => simpa [replaceScan] using hnot
      | cons c s =>
        have hFs : ScanSafe P m r s := scanSafe_suffix (u := [c]) hF
        cases hmt : m (c :: s) with
        | none =>
          rw [replaceScan_cons_none m r c s hmt]
          intro hin
          rcases List.infix_cons_iff.mp hin with hp | hi
          · apply hnot
            apply List.IsPrefix.isInfix
            obtain ⟨p0, P1, hPe⟩ := List.exists_cons_of_ne_nil hP
            rw [hPe, List.cons_prefix_cons] at hp
            rw [hPe, List.cons_prefix_cons]
            refine ⟨hp.1, ?_⟩
            have h1 := hpb s hFs 1 (by omega)
            rw [hPe] at h1
            exact h1 hp.2
          · exact ih s (by simpa using hl) hFs
              (fun h => hnot (List.infix_cons_iff.mpr (Or.inr h))) hi
        | some n =>
          obtain ⟨hn0, hn⟩ := hm _ _ hmt
          obtain ⟨hnew, _, halt⟩ := hF [] (c :: s) n rfl hmt
          rw [replaceScan_match m r (c :: s) n hmt hn0 (by simp)]
          have hFd : ScanSafe P m r ((c :: s).drop n) :=
            scanSafe_suffix (u := (c :: s).take n)
              (by rw [List.take_append_drop]; exact hF)
          have hnd : ¬ P <:+: (c :: s).drop n :=
            fun h => hnot (h.trans (List.drop_suffix _ _).isInfix)
          intro hin
          rcases infix_append_cases hin with h1 | h2 | ⟨k, hk0, hkl, hk1, hk2⟩
          · exact hnew h1
          · refine ih ((c :: s).drop n) ?_ hFd hnd h2
            simp only [List.length_drop, List.length_cons] at hl ⊢
            omega
          · rcases halt with hfol | hA
            swap
            · exact (hA k hk0 hkl).1 hk1
            have hpre := hpb _ hFd k hk0 hk2
            have hne : P.drop k ≠ [] := by
              intro h0
              have := congrArg List.length h0
              simp only [List.length_drop, List.length_nil] at this
              omega
            obtain ⟨d, y1, hdy⟩ := List.exists_cons_of_ne_nil hne
            rw [hdy] at hpre
            obtain ⟨w, hw⟩ := hpre
            have hd : d ∈ P := by
              have : d ∈ P.drop k := by rw [hdy]; simp
              exact List.mem_of_mem_drop this
            exact hfol d (by rw [← hw]; rfl) hd
  exact fun t => key t.length t (Nat.le_refl _)

theorem literalMatch_bound (old : Text) (h : old ≠ []) (t : Text) (n : Nat)
    (hm : literalMatch old t = some n) : 0 < n ∧ n ≤ t.length := by
  unfold literalMatch at hm
  by_cases hp : old.isPrefixOf t = true
  · rw [if_pos hp] at hm
    have hn : old.length = n := by simpa using hm
    rw [← hn]
    exact ⟨List.length_pos.mpr h, (List.isPrefixOf_iff_prefix.mp hp).length_le⟩
  · rw [if_neg hp] at hm
    exact absurd hm (by simp)

theorem unusedImportCommentRegex_bound (t : Text) (n : Nat)
    (hm : unusedImportCommentRegex t = some n) : 0 < n ∧ n ≤ t.length := by
  unfold unusedImportCommentRegex at hm
  by_cases hp : "// discarding unused import ".toList.isPrefixOf t = true
  · rw [if_pos hp] at hm
    simp only [] at hm
    by_cases hc : (t.drop 28).contains '\n' = true
    · rw [if_pos hc] at hm
      have hn : 28 + ((t.drop 28).takeWhile fun c => c != '\n').length + 1 = n := by
        simpa using hm
      refine ⟨by omega, ?_⟩
      have hmem : '\n' ∈ t.drop 28 := by
        simpa [List.contains_eq_any_beq] using hc
      have hlt : ((t.drop 28).takeWhile fun c => c != '\n').length < (t.drop 28).length := by
        rcases Nat.lt_or_ge ((t.drop 28).takeWhile fun c => c != '\n').length
          (t.drop 28).length with h | h
        · exact h
        · exfalso
          have heq : (t.drop 28).takeWhile (fun c => c != '\n') = t.drop 28 :=
            (List.takeWhile_prefix _).eq_of_length_le h
          have hall := List.takeWhile_eq_self_iff.mp heq '\n' hmem
          exact absurd hall (by decide)
      rw [List.length_drop] at hlt
      omega
    · rw [if_neg hc] at hm
      exact absurd hm (by simp)
  · rw [if_neg hp] at hm
    exact absurd hm (by simp)

theorem pkgRegex_bound (t : Text) (n : Nat) (hm : pkgRegex t = some n) :
    0 < n ∧ n ≤ t.length :=
  ⟨(pkgRegex_shape t n hm).1, (pkgRegex_shape t n hm).2.1⟩

theorem fileDescriptorVarRegex_bound (t : Text) (n : Nat)
    (hm : fileDescriptorVarRegex t = some n) : 0 < n ∧ n ≤ t.length := by
  refine ⟨?_, fileDescriptorVarRegex_le t n hm⟩
  unfold fileDescriptorVarRegex at hm
  by_cases hp : "fileDescriptor".toList.isPrefixOf t = true
  · rw [if_pos hp] at hm
    by_cases hw : (t.drop 14).takeWhile isDigitChar = []
    · simp [hw] at hm
    · simp only [hw, if_false, Option.some.injEq] at hm
      omega
  · rw [if_neg hp] at hm
    exact absurd hm (by simp)

theorem bytesReplace_eq_scan (s old new : Text) (h : old ≠ []) :
    bytesReplace s old new = replaceScan (literalMatch old) (fun _ => new) 0 s := by
  obtain ⟨a, o, rfl⟩ := List.exists_cons_of_ne_nil h
  rfl

theorem declText_ne_nil (name path : Text) : declText name path ≠ [] := by
  simp [declText]

theorem bytesReplace_stays_free (P old new : Text) (hP : P ≠ []) (hold : old ≠ []) (t : Text)
    (hS : ScanSafe P (literalMatch old) (fun _ => new) t) (h : ¬ P <:+: t) :
    ¬ P <:+: bytesReplace t old new := by
  rw [bytesReplace_eq_scan t old new hold]
  exact replaceScan_stays_free P hP _ _ (literalMatch_bound old hold) t hS h

theorem loopSafe_of_check (P : Text) :
    ∀ (l : List ImportSpec) (file : Text), loopSafeB P l file = true → LoopSafe P l file := by
  intro l
  induction l with
  | nil => intro _ _; trivial
  | cons itr rest ih =>
    intro file h
    unfold LoopSafe
    unfold loopSafeB at h
    cases hn : itr.Name with
    | none => trivial
    | some name =>
      rw [hn] at h
      simp only [Bool.and_eq_true] at h
      exact ⟨scanSafe_of_check _ _ _ _ h.1.1, scanSafe_of_check _ _ _ _ h.1.2, ih _ h.2⟩

theorem tailSafe_of_check (P pkg b f1 : Text) (h : tailSafeB uni P pkg b f1 = true) :
    TailSafe uni P pkg b f1 := by
  unfold tailSafeB at h
  simp only [Bool.and_eq_true] at h
  exact ⟨scanSafe_of_check _ _ _ _ h.1.1.1, scanSafe_of_check _ _ _ _ h.1.1.2,
    scanSafe_of_check _ _ _ _ h.1.2, scanSafe_of_check _ _ _ _ h.2⟩

theorem rewriteSafe_of_check (P : Text) (imports : List ImportSpec) (path file : Text)
    (h : rewriteSafeB uni P imports path file = true) :
    RewriteSafe uni P imports path file := by
  unfold rewriteSafeB at h
  rw [Bool.and_eq_true] at h
  refine ⟨loopSafe_of_check P _ _ h.1, ?_⟩
  intro f1 pkg h1 h2
  have h3 := h.2
  rw [h1, h2] at h3
  exact tailSafe_of_check P pkg _ f1 h3

/-- The steps after the loop keep a text free of `P`. -/
theorem tail_stays_free (P pkg b f1 : Text) (hP : P ≠ []) (hS : TailSafe uni P pkg b f1)
    (h : ¬ P <:+: f1) :
    ¬ P <:+: prefixFileDescriptors b (fixDescriptor (fixPackage uni pkg (stripWarnings f1))) := by
  obtain ⟨h1, h2, h3, h4⟩ := hS
  have a1 : ¬ P <:+: stripWarnings f1 :=
    replaceScan_stays_free P hP _ _ unusedImportCommentRegex_bound f1 h1 h
  have a2 : ¬ P <:+: fixPackage uni pkg (stripWarnings f1) :=
    replaceScan_stays_free P hP _ _ pkgRegex_bound _ h2 a1
  have a3 : ¬ P <:+: fixDescriptor (fixPackage uni pkg (stripWarnings f1)) :=
    bytesReplace_stays_free P _ _ hP descriptorProto_ne_nil _ h3 a2
  exact replaceScan_stays_free P hP _ _ fileDescriptorVarRegex_bound _ h4 a3

theorem extendsTo_suffix {P D u v : Text} (h : ExtendsTo P D (u ++ v)) : ExtendsTo P D v := by
  intro u1 v1 huv
  exact h (u ++ u1) v1 (by rw [huv, List.append_assoc])

/-- Deleting every occurrence of `D` removes a pattern `P` all of whose
occurrences start an occurrence of `D`, when `P` cannot arise from a deletion. -/
theorem bytesReplace_delete_covered (P D : Text) (hP : P ≠ []) (hD : D ≠ []) :
    ∀ t, ExtendsTo P D t → ScanSafe P (literalMatch D) (fun _ => []) t →
      ¬ P <:+: bytesReplace t D [] := by
  apply bytesReplace_induction D hD
  · intro _ _ hx
    rw [bytesReplace_nil _ _ hD] at hx
    exact hP (List.infix_nil.mp hx)
  · intro v ih hE hS
    rw [bytesReplace_append_old _ _ _ hD, List.nil_append]
    exact ih (extendsTo_suffix hE) (scanSafe_suffix hS)
  · intro c s hnp ih hE hS
    have hEs : ExtendsTo P D s := extendsTo_suffix (u := [c]) hE
    have hSs : ScanSafe P (literalMatch D) (fun _ => []) s := scanSafe_suffix (u := [c]) hS
    rw [bytesReplace_cons _ _ _ _ hD hnp]
    intro hin
    rcases List.infix_cons_iff.mp hin with hp | hi
    · apply hnp
      apply hE [] (c :: s) rfl
      obtain ⟨p0, P1, hPe⟩ := List.exists_cons_of_ne_nil hP
      rw [hPe, List.cons_prefix_cons] at hp
      rw [hPe, List.cons_prefix_cons]
      refine ⟨hp.1, ?_⟩
      have h1 := replaceScan_pullback P _ _ (literalMatch_bound D hD) s hSs 1 (by omega)
      rw [← bytesReplace_eq_scan s D [] hD, hPe] at h1
      exact h1 hp.2
    · exact ih hEs hSs hi

theorem extendsTo_self (P t : Text) : ExtendsTo P P t := fun _ _ _ h => h

/-- The loop removes the qualifier of an import it runs over. -/
theorem stripImports_removes_qualifier (name : Text) :
    ∀ (l : List ImportSpec) (file f1 : Text), LoopSafe (name ++ ['.']) l file →
      stripImports l file = some f1 →
      (¬ (name ++ ['.']) <:+: file ∨ ∃ itr ∈ l, itr.Name = some name) →
      ¬ (name ++ ['.']) <:+: f1 := by
  intro l
  induction l with
  | nil =>
    intro file f1 _ h hn
    simp only [stripImports, Option.some.injEq] at h
    rw [← h]
    rcases hn with hn | ⟨itr, hmem, _⟩
    · exact hn
    · exact absurd hmem (by simp)
  | cons itr rest ih =>
    intro file f1 hS h hn
    unfold LoopSafe at hS
    unfold stripImports removeImport at h
    cases hname : itr.Name with
    | none => rw [hname] at h; exact absurd h (by simp)
    | some nm =>
      rw [hname] at h hS
      simp only [] at h hS
      obtain ⟨s1, s2, s3⟩ := hS
      apply ih _ f1 s3 h
      by_cases heq : nm = name
      · left
        subst heq
        apply bytesReplace_stays_free _ _ _ (by simp) (declText_ne_nil _ _) _ s2
        exact bytesReplace_delete_covered _ _ (by simp) (by simp) _ (extendsTo_self _ _) s1
      · rcases hn with hn | ⟨j, hmem, hj⟩
        · left
          apply bytesReplace_stays_free _ _ _ (by simp) (declText_ne_nil _ _) _ s2
          exact bytesReplace_stays_free _ _ _ (by simp) (by simp) _ s1 hn
        · right
          rcases List.mem_cons.mp hmem with hji | hjr
          · rw [hji, hname] at hj
            exact absurd (Option.some.inj hj) heq
          · exact ⟨j, hjr, hj⟩

theorem untouched_of_check (m : Text → Option Nat) (pre mid post : Text)
    (h : untouchedB m pre mid post = true) : Untouched m pre mid post := by
  unfold untouchedB at h
  rw [Bool.and_eq_true] at h
  constructor
  · have key : ∀ (rest pre : Text), untouchedPreB m rest pre = true →
        ∀ u v n, pre = u ++ v → v ≠ [] → m (v ++ rest) = some n → n ≤ v.length := by
      intro rest pre
      induction pre with
      | nil =>
        intro _ u v n huv hv
        have h1 : u ++ v = [] := huv.symm
        exact absurd (List.append_eq_nil.mp h1).2 hv
      | cons a s ih =>
        intro hchk u v n huv hv hm
        rw [untouchedPreB, Bool.and_eq_true] at hchk
        cases u with
        | nil =>
          have hv1 : v = a :: s := by simpa using huv.symm
          subst hv1
          have h0 := hchk.1
          rw [hm] at h0
          exact of_decide_eq_true h0
        | cons b u =>
          have hs : s = u ++ v := by
            simp only [List.cons_append, List.cons.injEq] at huv
            exact huv.2
          exact ih hchk.2 u v n hs hv hm
    exact key _ _ h.1
  · have key : ∀ (mid : Text), untouchedMidB m post mid = true →
        ∀ u v, mid = u ++ v → v ≠ [] → m (v ++ post) = none := by
      intro mid
      induction mid with
      | nil =>
        intro _ u v huv hv
        have h1 : u ++ v = [] := huv.symm
        exact absurd (List.append_eq_nil.mp h1).2 hv
      | cons a s ih =>
        intro hchk u v huv hv
        rw [untouchedMidB, Bool.and_eq_true] at hchk
        cases u with
        | nil =>
          have hv1 : v = a :: s := by simpa using huv.symm
          subst hv1
          exact Option.isNone_iff_eq_none.mp hchk.1
        | cons b u =>
          have hs : s = u ++ v := by
            simp only [List.cons_append, List.cons.injEq] at huv
            exact huv.2
          exact ih hchk.2 u v hs hv
    exact key _ h.2

/-- A scan none of whose matches touches `mid` works on the text before `mid`
and on the text after it separately and leaves `mid` as it is. -/
theorem replaceScan_untouched (m : Text → Option Nat) (r : Text → Text)
    (hm : ∀ t n, m t = some n → 0 < n ∧ n ≤ t.length)
    (hloc1 : ∀ v rest n, m (v ++ rest) = some n → n ≤ v.length → m v = some n)
    (hloc2 : ∀ v rest, m (v ++ rest) = none → m v = none)
    (pre mid post : Text) (h : Untouched m pre mid post) :
    replaceScan m r 0 (pre ++ mid ++ post)
      = replaceScan m r 0 pre ++ mid ++ replaceScan m r 0 post := by
  rw [List.append_assoc, replaceScan_append m r (mid ++ post) pre, 
    replaceScan_keep_prefix m r mid post h.2, List.append_assoc]
  intro u v huv hv
  refine ⟨?_, fun n hn => (hm v n hn).2⟩
  cases hmv : m (v ++ (mid ++ post)) with
  | none => exact (hloc2 v _ hmv).symm
  | some n => exact (hloc1 v _ n hmv (h.1 u v n huv hv hmv)).symm

theorem literalMatch_local (old v rest : Text) (n : Nat)
    (h : literalMatch old (v ++ rest) = some n) (hn : n ≤ v.length) :
    literalMatch old v = some n := by
  unfold literalMatch at h
  by_cases hp : old.isPrefixOf (v ++ rest) = true
  · rw [if_pos hp] at h
    have hl : old.length = n := by simpa using h
    have hp1 : old <+: v :=
      List.prefix_of_prefix_length_le (List.isPrefixOf_iff_prefix.mp hp)
        (List.prefix_append _ _) (by omega)
    rw [literalMatch_hit old v hp1, hl]
  · rw [if_neg hp] at h
    exact absurd h (by simp)

theorem literalMatch_local_none (old v rest : Text)
    (h : literalMatch old (v ++ rest) = none) : literalMatch old v = none := by
  apply literalMatch_miss
  intro hp
  rw [literalMatch_hit old _ (hp.trans (List.prefix_append _ _))] at h
  exact absurd h (by simp)

theorem bytesReplace_untouched (old new : Text) (hold : old ≠ []) (pre mid post : Text)
    (h : Untouched (literalMatch old) pre mid post) :
    bytesReplace (pre ++ mid ++ post) old new
      = bytesReplace pre old new ++ mid ++ bytesReplace post old new := by
  rw [bytesReplace_eq_scan _ _ _ hold, bytesReplace_eq_scan _ _ _ hold,
    bytesReplace_eq_scan _ _ _ hold]
  exact replaceScan_untouched _ _ (literalMatch_bound old hold) (literalMatch_local old)
    (literalMatch_local_none old) pre mid post h

theorem takeWhile_append_short (p : Char → Bool) (b : Text) :
    ∀ a : Text, ((a ++ b).takeWhile p).length < a.length →
      (a ++ b).takeWhile p = a.takeWhile p ∧ ∃ c ∈ a, p c = false := by
  intro a
  induction a with
  | nil => intro h; exact absurd h (by simp)
  | cons x a ih =>
    intro h
    rw [List.cons_append, List.takeWhile_cons] at h
    rw [List.cons_append, List.takeWhile_cons, List.takeWhile_cons]
    cases hx : p x with
    | false => exact ⟨by simp, x, by simp, hx⟩
    | true =>
      rw [hx] at h
      simp only [if_true, List.length_cons, Nat.add_lt_add_iff_right] at h
      obtain ⟨h1, c, hc, hpc⟩ := ih h
      exact ⟨by simp [h1], c, List.mem_cons_of_mem _ hc, hpc⟩

theorem takeWhile_append_ne_nil (p : Char → Bool) (a b : Text) (h : a.takeWhile p ≠ []) :
    (a ++ b).takeWhile p ≠ [] := by
  cases a with
  | nil => exact absurd rfl h
  | cons x a =>
    rw [List.cons_append, List.takeWhile_cons]
    rw [List.takeWhile_cons] at h
    cases hx : p x with
    | false => rw [hx] at h; exact absurd rfl h
    | true => simp

theorem unusedImportCommentRegex_local (v rest : Text) (n : Nat)
    (h : unusedImportCommentRegex (v ++ rest) = some n) (hn : n ≤ v.length) :
    unusedImportCommentRegex v = some n := by
  unfold unusedImportCommentRegex at h
  by_cases hp : "// discarding unused import ".toList.isPrefixOf (v ++ rest) = true
  · rw [if_pos hp] at h
    simp only [] at h
    by_cases hc : ((v ++ rest).drop 28).contains '\n' = true
    · rw [if_pos hc] at h
      have hl : 28 + (((v ++ rest).drop 28).takeWhile fun c => c != '\n').length + 1 = n := by
        simpa using h
      have h28 : 28 ≤ v.length := by omega
      have hdrop : (v ++ rest).drop 28 = v.drop 28 ++ rest :=
        List.drop_append_of_le_length h28
      rw [hdrop] at hl
      have hshort : ((v.drop 28 ++ rest).takeWhile fun c => c != '\n').length
          < (v.drop 28).length := by
        rw [List.length_drop]
        omega
      obtain ⟨htw, c, hcm, hcn⟩ := takeWhile_append_short _ rest _ hshort
      have hp1 : "// discarding unused import ".toList <+: v :=
        List.prefix_of_prefix_length_le (List.isPrefixOf_iff_prefix.mp hp)
          (List.prefix_append _ _) h28
      have hc1 : (v.drop 28).contains '\n' = true := by
        have : c = '\n' := by simpa using hcn
        rw [this] at hcm
        simpa [List.contains_eq_any_beq] using hcm
      unfold unusedImportCommentRegex
      rw [if_pos (List.isPrefixOf_iff_prefix.mpr hp1)]
      simp only []
      rw [if_pos hc1, ← htw, hl]
    · rw [if_neg hc] at h
      exact absurd h (by simp)
  · rw [if_neg hp] at h
    exact absurd h (by simp)

theorem unusedImportCommentRegex_local_none (v rest : Text)
    (h : unusedImportCommentRegex (v ++ rest) = none) : unusedImportCommentRegex v = none := by
  cases hv : unusedImportCommentRegex v with
  | none => rfl
  | some n =>
    exfalso
    unfold unusedImportCommentRegex at hv
    by_cases hp : "// discarding unused import ".toList.isPrefixOf v = true
    · rw [if_pos hp] at hv
      simp only [] at hv
      by_cases hc : (v.drop 28).contains '\n' = true
      · have hp1 := List.isPrefixOf_iff_prefix.mp hp
        have h28 : 28 ≤ v.length := hp1.length_le
        have hdrop : (v ++ rest).drop 28 = v.drop 28 ++ rest :=
          List.drop_append_of_le_length h28
        have hc2 : ((v ++ rest).drop 28).contains '\n' = true := by
          rw [hdrop]
          simp only [List.contains_eq_any_beq, List.any_eq_true, beq_iff_eq] at hc ⊢
          obtain ⟨x, hx, hxe⟩ := hc
          exact ⟨x, List.mem_append_left _ hx, hxe⟩
        unfold unusedImportCommentRegex at h
        rw [if_pos (List.isPrefixOf_iff_prefix.mpr (hp1.trans (List.prefix_append _ _)))] at h
        simp only [] at h
        rw [if_pos hc2] at h
        exact absurd h (by simp)
      · rw [if_neg hc] at hv
        exact absurd hv (by simp)
    · rw [if_neg hp] at hv
      exact absurd hv (by simp)

theorem pkgRegex_local (v rest : Text) (n : Nat)
    (h : pkgRegex (v ++ rest) = some n) (hn : n ≤ v.length) : pkgRegex v = some n := by
  unfold pkgRegex at h
  by_cases hp : "package ".toList.isPrefixOf (v ++ rest) = true
  · rw [if_pos hp] at h
    simp only [] at h
    by_cases hw : ((v ++ rest).drop 8).takeWhile isWordChar = []
    · rw [if_pos hw] at h
      exact absurd h (by simp)
    · rw [if_neg hw] at h
      have hl : 8 + (((v ++ rest).drop 8).takeWhile isWordChar).length = n := by
        simpa using h
      have h8 : 8 ≤ v.length := by omega
      have hdrop : (v ++ rest).drop 8 = v.drop 8 ++ rest :=
        List.drop_append_of_le_length h8
      rw [hdrop] at hl hw
      have hp1 : "package ".toList <+: v :=
        List.prefix_of_prefix_length_le (List.isPrefixOf_iff_prefix.mp hp)
          (List.prefix_append _ _) h8
      have htw : (v.drop 8 ++ rest).takeWhile isWordChar = (v.drop 8).takeWhile isWordChar := by
        rcases Nat.lt_or_ge ((v.drop 8 ++ rest).takeWhile isWordChar).length
          (v.drop 8).length with hlt | hge
        · exact (takeWhile_append_short _ rest _ hlt).1
        · have hlen : ((v.drop 8 ++ rest).takeWhile isWordChar).length = (v.drop 8).length := by
            rw [List.length_drop] at hge ⊢
            omega
          have hpre : v.drop 8 <+: (v.drop 8 ++ rest).takeWhile isWordChar :=
            List.prefix_of_prefix_length_le (List.prefix_append _ _)
              (List.takeWhile_prefix _) (by omega)
          have heq : v.drop 8 = (v.drop 8 ++ rest).takeWhile isWordChar :=
            hpre.eq_of_length hlen.symm
          have hall : ∀ c ∈ v.drop 8, isWordChar c = true := by
            intro c hc
            rw [heq] at hc
            exact (List.mem_takeWhile_imp hc)
          rw [← heq]
          exact (List.takeWhile_eq_self_iff.mpr hall).symm
      unfold pkgRegex
      rw [if_pos (List.isPrefixOf_iff_prefix.mpr hp1)]
      simp only []
      rw [← htw, if_neg hw, hl]
  · rw [if_neg hp] at h
    exact absurd h (by simp)

theorem pkgRegex_local_none (v rest : Text)
    (h : pkgRegex (v ++ rest) = none) : pkgRegex v = none := by
  cases hv : pkgRegex v with
  | none => rfl
  | some n =>
    exfalso
    unfold pkgRegex at hv
    by_cases hp : "package ".toList.isPrefixOf v = true
    · rw [if_pos hp] at hv
      simp only [] at hv
      by_cases hw : (v.drop 8).takeWhile isWordChar = []
      · rw [if_pos hw] at hv
        exact absurd hv (by simp)
      · have hp1 := List.isPrefixOf_iff_prefix.mp hp
        have h8 : 8 ≤ v.length := hp1.length_le
        have hdrop : (v ++ rest).drop 8 = v.drop 8 ++ rest :=
          List.drop_append_of_le_length h8
        unfold pkgRegex at h
        rw [if_pos (List.isPrefixOf_iff_prefix.mpr (hp1.trans (List.prefix_append _ _)))] at h
        simp only [] at h
        rw [hdrop, if_neg (takeWhile_append_ne_nil _ _ rest hw)] at h
        exact absurd h (by simp)
    · rw [if_neg hp] at hv
      exact absurd hv (by simp)

theorem loopUntouched_of_check (sym : Text) :
    ∀ (l : List ImportSpec) (pre post : Text),
      loopUntouchedB sym l pre post = true → LoopUntouched sym l pre post := by
  intro l
  induction l with
  | nil => intro _ _ _; trivial
  | cons itr rest ih =>
    intro pre post h
    unfold LoopUntouched
    unfold loopUntouchedB at h
    cases hn : itr.Name with
    | none => trivial
    | some name =>
      rw [hn] at h
      simp only [Bool.and_eq_true] at h
      exact ⟨untouched_of_check _ _ _ _ h.1.1, untouched_of_check _ _ _ _ h.1.2, ih _ _ h.2⟩

theorem symbolUntouched_of_check (sym : Text) (imports : List ImportSpec)
    (path pre post : Text) (h : symbolUntouchedB uni sym imports path pre post = true) :
    SymbolUntouched uni sym imports path pre post := by
  unfold symbolUntouchedB at h
  rw [Bool.and_eq_true] at h
  refine ⟨loopUntouched_of_check sym _ _ _ h.1, ?_⟩
  intro pre1 post1 pkg h1 h2 h3
  have h4 := h.2
  rw [h1, h2, h3] at h4
  simp only [Bool.and_eq_true] at h4
  refine ⟨untouched_of_check _ _ _ _ h4.1.1, untouched_of_check _ _ _ _ h4.1.2, ?_⟩
  intro c hc
  have h5 := h4.2
  rw [hc] at h5
  simpa using h5

/-- The loop works on the text before an untouched stretch and on the text
after it separately. -/
theorem stripImports_untouched (sym : Text) :
    ∀ (l : List ImportSpec) (pre post pre1 post1 : Text), LoopUntouched sym l pre post →
      stripImports l pre = some pre1 → stripImports l post = some post1 →
      stripImports l (pre ++ sym ++ post) = some (pre1 ++ sym ++ post1) := by
  intro l
  induction l with
  | nil =>
    intro pre post pre1 post1 _ h1 h2
    simp only [stripImports, Option.some.injEq] at h1 h2 ⊢
    rw [h1, h2]
  | cons itr rest ih =>
    intro pre post pre1 post1 hS h1 h2
    unfold LoopUntouched at hS
    unfold stripImports removeImport at h1 h2 ⊢
    cases hname : itr.Name with
    | none => rw [hname] at h1; exact absurd h1 (by simp)
    | some name =>
      rw [hname] at h1 h2 hS
      simp only [] at h1 h2 hS ⊢
      obtain ⟨s1, s2, s3⟩ := hS
      have e1 : stripQualifier name (pre ++ sym ++ post)
          = stripQualifier name pre ++ sym ++ stripQualifier name post :=
        bytesReplace_untouched _ _ (by simp) pre sym post s1
      have e2 : removeImportDecl name itr.Path
            (stripQualifier name pre ++ sym ++ stripQualifier name post)
          = removeImportDecl name itr.Path (stripQualifier name pre) ++ sym ++
            removeImportDecl name itr.Path (stripQualifier name post) :=
        bytesReplace_untouched _ _ (declText_ne_nil _ _) _ sym _ s2
      rw [e1, e2]
      exact ih _ _ pre1 post1 s3 h1 h2

theorem descriptor_fi_incomparable :
    ∀ k, k < descriptorProto.length → 0 < k →
      ¬ descriptorProto.drop k <+: "fi".toList ∧ ¬ "fi".toList <+: descriptorProto.drop k := by
  decide

/-- The repointing step leaves a `fileDescriptor` symbol alone and works on the
text before and after it separately. -/
theorem fixDescriptor_at_symbol (pre digits post : Text)
    (hDd : ∀ c ∈ digits, isDigitChar c = true) :
    fixDescriptor (pre ++ ("fileDescriptor".toList ++ digits) ++ post)
      = fixDescriptor pre ++ ("fileDescriptor".toList ++ digits) ++ fixDescriptor post := by
  apply bytesReplace_untouched _ _ descriptorProto_ne_nil
  constructor
  · intro u v n _ hv hm
    unfold literalMatch at hm
    by_cases hp : descriptorProto.isPrefixOf (v ++ ("fileDescriptor".toList ++ digits ++ post))
        = true
    · rw [if_pos hp] at hm
      have hl : descriptorProto.length = n := by simpa using hm
      have hsplit : "fileDescriptor".toList ++ digits ++ post
          = "fi".toList ++ ("leDescriptor".toList ++ digits ++ post) := by
        simp
      rw [hsplit] at hp
      have := (prefix_append_barrier descriptorProto "fi".toList descriptor_fi_incomparable
        v _ hv).mp (List.isPrefixOf_iff_prefix.mp hp)
      rw [← hl]
      exact this.length_le
    · rw [if_neg hp] at hm
      exact absurd hm (by simp)
  · intro u v huv hv
    apply literalMatch_miss
    intro hp
    obtain ⟨x, v1, rfl⟩ := List.exists_cons_of_ne_nil hv
    have hx : x ∈ "fileDescriptor".toList ++ digits := by
      rw [huv]
      exact List.mem_append_right _ (List.mem_cons_self _ _)
    have hg : x = 'g' := by
      have h1 : descriptorProto = 'g' :: "oogle/protobuf/descriptor.proto".toList := rfl
      rw [h1, List.cons_append, List.cons_prefix_cons] at hp
      exact hp.1.symm
    rw [hg] at hx
    rcases List.mem_append.mp hx with h | h
    · exact absurd h (by decide)
    · exact absurd (hDd _ h) (by decide)

/-! ## C1: removal of Local import declarations -/

/-- C2 (amended): for a target path with a separator and a file all of whose
Local imports have an alias, the text `fixProto` produces for a Local import
with alias `name` has no occurrence of `name.`, provided `name.` cannot arise
from a replacement of the rewrite: at every replacement `fixProto` performs
(the deletions of a qualifier and of a declaration text in the removal loop,
this import's own included, the deletion of a warning comment, the rewriting
of a package clause, the repointing of the descriptor path, the prefixing of a
`fileDescriptor` symbol) the replaced text is at the end of the text or
directly followed by a character that occurs neither in `name` nor is a dot,
and the text put in its place neither contains `name.` nor starts with an end
piece of it. -/
theorem fixProto_removes_qualifier (imports : List ImportSpec) (path file : Text)
    (name p : Text)
    (hi : (⟨some name, p⟩ : ImportSpec) ∈ imports)
    (hlocal : isLocal ⟨some name, p⟩ = true)
    (hsep : '/' ∈ path)
    (hnames : ∀ j ∈ imports, isLocal j = true → j.Name.isSome = true)
    (hsafe : RewriteSafe uni (name ++ ['.']) imports path file) :
    ∃ out, fixProto uni imports path file = some out ∧ ¬ (name ++ ['.']) <:+: out := by
  have hl : (stripImports (importsToRemove imports) file).isSome = true := by
    rw [stripImports_isSome_iff]
    intro j hj
    have := List.mem_filter.mp hj
    exact hnames j this.1 this.2
  obtain ⟨f1, hf1⟩ := Option.isSome_iff_exists.mp hl
  obtain ⟨pkg, hpkg⟩ := Option.isSome_iff_exists.mp ((inferPackageName_isSome_iff path).mpr hsep)
  refine ⟨_, by unfold fixProto; rw [hf1, hpkg], ?_⟩
  apply tail_stays_free _ _ _ _ (by simp) (hsafe.2 f1 pkg hf1 hpkg)
  apply stripImports_removes_qualifier name _ file f1 hsafe.1 hf1
  right
  exact ⟨⟨some name, p⟩, List.mem_filter.mpr ⟨hi, hlocal⟩, rfl⟩

/-- C2 (witness): a file with two Local imports, the Shared import, qualified
references to exported identifiers and a `fileDescriptor` symbol. -/
theorem fixProto_removes_qualifier_witness :
    ∃ out, fixProto asciiTable
        [⟨some "a".toList, "\"x.proto\"".toList⟩, ⟨some "b".toList, "\"y.proto\"".toList⟩,
          ⟨some "d".toList, "\"google/protobuf/descriptor.proto\"".toList⟩]
        "steam/base.pb.go".toList
        "package x\n\nimport a \"x.proto\"\nimport b \"y.proto\"\nimport d \"google/protobuf/descriptor.proto\"\n\nvar x a.Foo = a.Bar(b.Baz)\nvar fileDescriptor0 = 1\n".toList
        = some out ∧ ¬ ("a".toList ++ ['.']) <:+: out :=
  fixProto_removes_qualifier
    [⟨some "a".toList, "\"x.proto\"".toList⟩, ⟨some "b".toList, "\"y.proto\"".toList⟩,
      ⟨some "d".toList, "\"google/protobuf/descriptor.proto\"".toList⟩]
    "steam/base.pb.go".toList
    "package x\n\nimport a \"x.proto\"\nimport b \"y.proto\"\nimport d \"google/protobuf/descriptor.proto\"\n\nvar x a.Foo = a.Bar(b.Baz)\nvar fileDescriptor0 = 1\n".toList
    "a".toList "\"x.proto\"".toList
    (by decide) (by decide) (by decide) (by decide)
    (rewriteSafe_of_check _ _ _ _ (by decide))

/-- C2 (counterexample): with the Local import `a "x.proto"`, the variadic call
`f(aa...)` is rewritten to `f(a..)`: the rewritten text contains `a.`; and
with the Local import `g "x.proto"` next to the Shared import, the repointing
step writes `google.golang.org/protobuf/types/descriptorpb`, which contains
`g.`, after the loop has run. -/
theorem fixProto_qualifier_survives :
    (isLocal ⟨some "a".toList, "\"x.proto\"".toList⟩ = true ∧
      fixProto asciiTable [⟨some "a".toList, "\"x.proto\"".toList⟩] "steam/base.pb.go".toList
          "package x\n\nimport a \"x.proto\"\n\nvar _ = f(aa...)\n".toList
        = some "package steam\n\nimport \n\nvar _ = f(a..)\n".toList ∧
      "a.".toList <:+: "package steam\n\nimport \n\nvar _ = f(a..)\n".toList) ∧
    (isLocal ⟨some "g".toList, "\"x.proto\"".toList⟩ = true ∧
      fixProto asciiTable
          [⟨some "g".toList, "\"x.proto\"".toList⟩,
            ⟨some "d".toList, "\"google/protobuf/descriptor.proto\"".toList⟩]
          "steam/base.pb.go".toList
          "package x\n\nimport g \"x.proto\"\nimport d \"google/protobuf/descriptor.proto\"\n".toList
        = some "package steam\n\nimport \nimport d \"google.golang.org/protobuf/types/descriptorpb\"\n".toList ∧
      "g.".toList <:+:
        "package steam\n\nimport \nimport d \"google.golang.org/protobuf/types/descriptorpb\"\n".toList) := by
  refine ⟨⟨by decide, by decide, by decide⟩, by decide, by decide, by decide⟩

/-! ## C3: the Shared import -/

/-- C3 (amended): the classification never selects an import whose path
contains the descriptor path for removal; right after the repointing
replacement no occurrence of the original path `google/protobuf/descriptor.proto`
is left, whatever the text; and when the text that reaches the repointing
replacement has exactly one occurrence of the original path, the text
`fixProto` produces has the canonical path in its place, between the
rewritten text before it and the rewritten text after it. -/
theorem fixProto_shared_import :
    (∀ (imports : List ImportSpec) (i : ImportSpec),
      i ∈ importsToRemove imports → ¬ descriptorProto <:+: i.Path) ∧
    (∀ file : Text, ¬ descriptorProto <:+: fixDescriptor file) ∧
    (∀ (imports : List ImportSpec) (path file f1 pkg pre post : Text),
      stripImports (importsToRemove imports) file = some f1 →
      inferPackageName path = some pkg →
      fixPackage uni pkg (stripWarnings f1) = pre ++ descriptorProto ++ post →
      ¬ descriptorProto <:+: pre → ¬ descriptorProto <:+: post →
      fixProto uni imports path file
        = some (prefixFileDescriptors (fileBaseName path) pre ++ descriptorpb ++
            prefixFileDescriptors (fileBaseName path) post)) := by
  refine ⟨?_, ?_, ?_⟩
  · intro imports i hi
    have h := (List.mem_filter.mp hi).2
    simp only [isLocal, Bool.and_eq_true, Bool.not_eq_true'] at h
    exact (containsSub_eq_false_iff _ _).mp h.1
  · intro file
    exact no_infix_replace descriptorProto descriptorpb descriptorProto_ne_nil (by decide)
      descriptor_not_in_canonical descriptor_no_overlap_drop descriptor_no_overlap_take file
  · intro imports path file f1 pkg pre post hloop hpkg htext hpre hpost
    have hstep : fixDescriptor (pre ++ descriptorProto ++ post)
        = pre ++ descriptorpb ++ post := by
      unfold fixDescriptor
      rw [bytesReplace_first descriptorProto descriptorpb descriptorProto_ne_nil
        descriptor_unbordered pre post hpre,
        bytesReplace_of_not_infix descriptorProto descriptorpb descriptorProto_ne_nil post hpost]
    unfold fixProto
    rw [hloop, hpkg]
    simp only []
    rw [htext, hstep, prefixFileDescriptors_around_canonical]

/-- C3 (witness): a file with a Local import and the Shared import. -/
theorem fixProto_shared_import_witness :
    fixProto asciiTable
        [⟨some "a".toList, "\"x.proto\"".toList⟩,
         ⟨some "d".toList, "\"google/protobuf/descriptor.proto\"".toList⟩]
        "steam/base.pb.go".toList
        "package x\n\nimport (\n\ta \"x.proto\"\n\td \"google/protobuf/descriptor.proto\"\n)\n".toList
      = some (prefixFileDescriptors (fileBaseName "steam/base.pb.go".toList)
            "package steam\n\nimport (\n\t\n\td \"".toList ++ descriptorpb ++
          prefixFileDescriptors (fileBaseName "steam/base.pb.go".toList) "\"\n)\n".toList) :=
  fixProto_shared_import.2.2
    [⟨some "a".toList, "\"x.proto\"".toList⟩,
     ⟨some "d".toList, "\"google/protobuf/descriptor.proto\"".toList⟩]
    "steam/base.pb.go".toList
    "package x\n\nimport (\n\ta \"x.proto\"\n\td \"google/protobuf/descriptor.proto\"\n)\n".toList
    "package x\n\nimport (\n\t\n\td \"google/protobuf/descriptor.proto\"\n)\n".toList
    "steam".toList "package steam\n\nimport (\n\t\n\td \"".toList "\"\n)\n".toList
    (by decide) (by decide) (by decide) (by decide) (by decide)

/-- C3 (counterexample): a Local import with alias `descriptor` makes the
qualifier stripping delete `descriptor.` inside the Shared import's path; the
path is then not repointed, and the rewritten text has no occurrence of the
canonical path although the input imported the Shared file exactly once. -/
theorem fixProto_shared_import_damaged :
    isLocal ⟨some "descriptor".toList, "\"steam/desc.proto\"".toList⟩ = true ∧
    isLocal ⟨some "google_protobuf".toList, "\"google/protobuf/descriptor.proto\"".toList⟩ = false ∧
    fixProto asciiTable
        [⟨some "descriptor".toList, "\"steam/desc.proto\"".toList⟩,
         ⟨some "google_protobuf".toList, "\"google/protobuf/descriptor.proto\"".toList⟩]
        "steam/base.pb.go".toList
        "package x\n\nimport (\n\tdescriptor \"steam/desc.proto\"\n\tgoogle_protobuf \"google/protobuf/descriptor.proto\"\n)\n".toList
      = some "package steam\n\nimport (\n\t\n\tgoogle_protobuf \"google/protobuf/proto\"\n)\n".toList ∧
    ¬ descriptorpb <:+:
      "package steam\n\nimport (\n\t\n\tgoogle_protobuf \"google/protobuf/proto\"\n)\n".toList := by
  refine ⟨by decide, by decide, by decide, by decide⟩

/-! ## C4: the package clause -/

/-- C4 (amended): for a target path with components `front.../d/base` the
inferred package name is `d`; and when `d` contains neither `$` nor
`fileDescriptor`, and the text that reaches the package step is `pre`, then
`package X`, then `post` (`X` a non-empty run of the characters `[0-9A-Za-z_]`,
`post` empty or starting with a character that is neither one of these nor
`/`, no `package ` in `pre`), the text `fixProto` produces has `package d` in
the place of `package X`, between the rewritten `pre` and the rewritten
`post`. -/
theorem fixProto_package_clause (imports : List ImportSpec) (front : List Text)
    (d base file f1 pre X post : Text)
    (hfront : ∀ p ∈ front, '/' ∉ p) (hd : '/' ∉ d) (hbase : '/' ∉ base)
    (hdollar : '$' ∉ d) (hdfd : ¬ "fileDescriptor".toList <:+: d)
    (hloop : stripImports (importsToRemove imports) file = some f1)
    (htext : stripWarnings f1 = pre ++ "package ".toList ++ X ++ post)
    (hX : X ≠ []) (hXw : ∀ c ∈ X, isWordChar c = true)
    (hpost : ∀ c, post.head? = some c → isWordChar c = false ∧ c ≠ '/')
    (hpre : ¬ "package ".toList <:+: pre) :
    inferPackageName (joinPath (front ++ [d, base])) = some d ∧
    fixProto uni imports (joinPath (front ++ [d, base])) file
      = some (prefixFileDescriptors (fileBaseName (joinPath (front ++ [d, base])))
            (fixDescriptor pre) ++
          "package ".toList ++ d ++
          prefixFileDescriptors (fileBaseName (joinPath (front ++ [d, base])))
            (fixDescriptor (fixPackage uni d post))) := by
  have hinf := inferPackageName_joinPath front d base hfront hd hbase
  refine ⟨hinf, ?_⟩
  have hpost1 : ∀ c, post.head? = some c → isWordChar c = false := fun c hc => (hpost c hc).1
  have hR : ∀ x, (fixPackage uni d post).head? = some x → isWordChar x = false ∧ x ≠ '/' := by
    intro x hx
    rw [fixPackage_head d post hpost1] at hx
    exact hpost x hx
  have hR2 : ∀ x, (fixDescriptor (fixPackage uni d post)).head? = some x →
      isWordChar x = false := by
    intro x hx
    rw [fixDescriptor_head _ (fun y hy => (hR y hy).1)] at hx
    exact (hR x hx).1
  unfold fixProto
  rw [hloop, hinf]
  simp only []
  rw [htext, fixPackage_clause d pre X post hdollar hX hXw hpost1 hpre,
    fixDescriptor_around_clause d pre _ hd hR,
    prefixFileDescriptors_around_clause _ d _ _ hdfd hR2]

/-- C4 (witness): a file targeted at `unified/auth.gen` whose clause is
`package steammessages`, with one Local import. -/
theorem fixProto_package_clause_witness :
    inferPackageName (joinPath ([] ++ ["unified".toList, "auth.gen".toList]))
      = some "unified".toList ∧
    fixProto asciiTable [⟨some "a".toList, "\"x.proto\"".toList⟩]
        (joinPath ([] ++ ["unified".toList, "auth.gen".toList]))
        "// Code generated.\npackage steammessages\n\nimport a \"x.proto\"\n\nvar _ = a.Foo\n".toList
      = some (prefixFileDescriptors
            (fileBaseName (joinPath ([] ++ ["unified".toList, "auth.gen".toList])))
            (fixDescriptor "// Code generated.\n".toList) ++
          "package ".toList ++ "unified".toList ++
          prefixFileDescriptors
            (fileBaseName (joinPath ([] ++ ["unified".toList, "auth.gen".toList])))
            (fixDescriptor (fixPackage asciiTable "unified".toList
              "\n\nimport \n\nvar _ = Foo\n".toList))) :=
  fixProto_package_clause [⟨some "a".toList, "\"x.proto\"".toList⟩] [] "unified".toList
    "auth.gen".toList
    "// Code generated.\npackage steammessages\n\nimport a \"x.proto\"\n\nvar _ = a.Foo\n".toList
    "// Code generated.\npackage steammessages\n\nimport \n\nvar _ = Foo\n".toList
    "// Code generated.\n".toList "steammessages".toList "\n\nimport \n\nvar _ = Foo\n".toList
    (by simp) (by decide) (by decide) (by decide) (by decide) (by decide) (by decide)
    (by decide) (by decide) (by decide) (by decide)

/-- C4 (counterexample): the replacement text is a template of
`regexp.ReplaceAll`, so for the target path `$1/auth.gen`, whose parent
directory component is `$1`, the clause `package steam` becomes
`package package steam` and the file does not declare package `$1`; and for
the target path `fileDescriptor0/auth.gen` the package name written by the
package step is itself renamed by the disambiguation step that follows, so
the file declares package `auth_fileDescriptor0`. -/
theorem fixProto_package_template :
    (inferPackageName "$1/auth.gen".toList = some "$1".toList ∧
      fixProto asciiTable [] "$1/auth.gen".toList "package steam\n".toList
        = some "package package steam\n".toList) ∧
    (inferPackageName "fileDescriptor0/auth.gen".toList = some "fileDescriptor0".toList ∧
      fixProto asciiTable [] "fileDescriptor0/auth.gen".toList "package steam\n".toList
        = some "package auth_fileDescriptor0\n".toList) := by
  refine ⟨⟨by decide, by decide⟩, by decide, by decide⟩

/-! ## C5: disambiguated symbols -/

/-- C5 (amended): for a target path with a separator (for a path `dir/b.ext`
the file name used as prefix is `b`) and a file all of whose Local imports
have an alias, a symbol `fileDescriptor<digits>` of the input that no earlier
step touches appears in the text `fixProto` produces as
`b_fileDescriptor<digits>`, between the rewrite of the text before it and the
rewrite of the text after it. No earlier step touches the symbol when no
occurrence of a qualifier or of a declaration text that the removal loop
deletes, no warning comment and no match of `package \w+` overlaps it, and the
text after it, as the earlier steps leave it, does not start with a digit. -/
theorem fixProto_symbol_prefixed (imports : List ImportSpec) (path pre digits post : Text)
    (hsep : '/' ∈ path)
    (hnames : ∀ j ∈ imports, isLocal j = true → j.Name.isSome = true)
    (hD : digits ≠ []) (hDd : ∀ c ∈ digits, isDigitChar c = true)
    (hsafe : SymbolUntouched uni ("fileDescriptor".toList ++ digits) imports path pre post) :
    (∀ dir b ext : Text, '/' ∉ b → '.' ∉ b → '/' ∉ ext →
      path = dir ++ '/' :: (b ++ '.' :: ext) → fileBaseName path = b) ∧
    ∃ pre1 post1, fixProto uni imports path pre = some pre1 ∧
      fixProto uni imports path post = some post1 ∧
      fixProto uni imports path (pre ++ "fileDescriptor".toList ++ digits ++ post)
        = some (pre1 ++ fileBaseName path ++ '_' :: "fileDescriptor".toList ++ digits ++
            post1) := by
  constructor
  · intro dir b ext hb1 hb2 hext hpath
    rw [hpath]
    exact fileBaseName_dir dir b ext hb1 hb2 hext
  have hall : ∀ j ∈ importsToRemove imports, j.Name.isSome = true := by
    intro j hj
    have := List.mem_filter.mp hj
    exact hnames j this.1 this.2
  obtain ⟨p1, hp1⟩ := Option.isSome_iff_exists.mp
    ((stripImports_isSome_iff (importsToRemove imports) pre).mpr hall)
  obtain ⟨q1, hq1⟩ := Option.isSome_iff_exists.mp
    ((stripImports_isSome_iff (importsToRemove imports) post).mpr hall)
  obtain ⟨pkg, hpkg⟩ := Option.isSome_iff_exists.mp ((inferPackageName_isSome_iff path).mpr hsep)
  obtain ⟨hw, hp, hdig⟩ := hsafe.2 p1 q1 pkg hp1 hq1 hpkg
  have hloop := stripImports_untouched _ _ pre post p1 q1 hsafe.1 hp1 hq1
  have e1 : stripWarnings (p1 ++ ("fileDescriptor".toList ++ digits) ++ q1)
      = stripWarnings p1 ++ ("fileDescriptor".toList ++ digits) ++ stripWarnings q1 :=
    replaceScan_untouched _ _ unusedImportCommentRegex_bound unusedImportCommentRegex_local
      unusedImportCommentRegex_local_none _ _ _ hw
  have e2 : fixPackage uni pkg
        (stripWarnings p1 ++ ("fileDescriptor".toList ++ digits) ++ stripWarnings q1)
      = fixPackage uni pkg (stripWarnings p1) ++ ("fileDescriptor".toList ++ digits) ++
        fixPackage uni pkg (stripWarnings q1) :=
    replaceScan_untouched _ _ pkgRegex_bound pkgRegex_local pkgRegex_local_none _ _ _ hp
  have hassoc : pre ++ "fileDescriptor".toList ++ digits ++ post
      = pre ++ ("fileDescriptor".toList ++ digits) ++ post := by
    simp
  refine ⟨_, _, by unfold fixProto; rw [hp1, hpkg], by unfold fixProto; rw [hq1, hpkg], ?_⟩
  unfold fixProto
  rw [hassoc, hloop, hpkg]
  simp only []
  rw [e1, e2, fixDescriptor_at_symbol _ _ _ hDd, ← List.append_assoc,
    prefixFileDescriptors_at_symbol _ _ digits _ hD hDd hdig]

/-- C5 (witness): `fileDescriptor0` in the files targeted at
`unified/auth.pb.go` and `unified/base.pb.go`, each with a Local import and a
qualified reference, becomes `auth_fileDescriptor0` in the one and
`base_fileDescriptor0` in the other. -/
theorem fixProto_symbol_prefixed_witness :
    (fileBaseName "unified/auth.pb.go".toList = "auth".toList ∧
      ∃ pre1 post1,
        fixProto asciiTable [⟨some "a".toList, "\"x.proto\"".toList⟩] "unified/auth.pb.go".toList
          "package x\n\nimport a \"x.proto\"\n\nvar _ = a.Foo\nvar ".toList = some pre1 ∧
        fixProto asciiTable [⟨some "a".toList, "\"x.proto\"".toList⟩] "unified/auth.pb.go".toList
          " = 1\n".toList = some post1 ∧
        fixProto asciiTable [⟨some "a".toList, "\"x.proto\"".toList⟩] "unified/auth.pb.go".toList
          ("package x\n\nimport a \"x.proto\"\n\nvar _ = a.Foo\nvar ".toList ++
            "fileDescriptor".toList ++ "0".toList ++ " = 1\n".toList)
          = some (pre1 ++ fileBaseName "unified/auth.pb.go".toList ++
              '_' :: "fileDescriptor".toList ++ "0".toList ++ post1)) ∧
    (fileBaseName "unified/base.pb.go".toList = "base".toList ∧
      ∃ pre1 post1,
        fixProto asciiTable [⟨some "a".toList, "\"x.proto\"".toList⟩] "unified/base.pb.go".toList
          "package x\n\nimport a \"x.proto\"\n\nvar _ = a.Foo\nvar ".toList = some pre1 ∧
        fixProto asciiTable [⟨some "a".toList, "\"x.proto\"".toList⟩] "unified/base.pb.go".toList
          " = 1\n".toList = some post1 ∧
        fixProto asciiTable [⟨some "a".toList, "\"x.proto\"".toList⟩] "unified/base.pb.go".toList
          ("package x\n\nimport a \"x.proto\"\n\nvar _ = a.Foo\nvar ".toList ++
            "fileDescriptor".toList ++ "0".toList ++ " = 1\n".toList)
          = some (pre1 ++ fileBaseName "unified/base.pb.go".toList ++
              '_' :: "fileDescriptor".toList ++ "0".toList ++ post1)) :=
  ⟨⟨by decide,
      (fixProto_symbol_prefixed [⟨some "a".toList, "\"x.proto\"".toList⟩]
        "unified/auth.pb.go".toList
        "package x\n\nimport a \"x.proto\"\n\nvar _ = a.Foo\nvar ".toList "0".toList
        " = 1\n".toList (by decide) (by decide) (by decide) (by decide)
        (symbolUntouched_of_check _ _ _ _ _ (by decide))).2⟩,
    ⟨by decide,
      (fixProto_symbol_prefixed [⟨some "a".toList, "\"x.proto\"".toList⟩]
        "unified/base.pb.go".toList
        "package x\n\nimport a \"x.proto\"\n\nvar _ = a.Foo\nvar ".toList "0".toList
        " = 1\n".toList (by decide) (by decide) (by decide) (by decide)
        (symbolUntouched_of_check _ _ _ _ _ (by decide))).2⟩⟩

/-- C5 (counterexample): for the target path `auth.pb.go`, whose file name has
the prefix `auth`, `fixProto` panics and produces no text at all; and with the
Local import `r0 "r0.proto"` the symbol in `append(z, fileDescriptor0...)`
loses its end to the deletion of the qualifier `r0.`, and the output has no
`auth_fileDescriptor0`. -/
theorem fixProto_symbol_lost :
    (fileBaseName "auth.pb.go".toList = "auth".toList ∧
      fixProto asciiTable [] "auth.pb.go".toList "package x\nvar fileDescriptor0 = 1\n".toList
        = none) ∧
    (isLocal ⟨some "r0".toList, "\"r0.proto\"".toList⟩ = true ∧
      fixProto asciiTable [⟨some "r0".toList, "\"r0.proto\"".toList⟩] "steam/auth.pb.go".toList
          "package x\n\nimport r0 \"r0.proto\"\n\nvar y = append(z, fileDescriptor0...)\n".toList
        = some "package steam\n\nimport r0 \"proto\"\n\nvar y = append(z, fileDescripto..)\n".toList ∧
      ¬ "auth_fileDescriptor0".toList <:+:
        "package steam\n\nimport r0 \"proto\"\n\nvar y = append(z, fileDescripto..)\n".toList) := by
  refine ⟨⟨by decide, by decide⟩, by decide, by decide, by decide⟩

/-! ## C6: outbound tagging -/

/-- C6 (amended): the message-type field of the envelope has its high bit set
when the message is schema-encoded; when it is not, the field is
`GetMsgType()` unchanged, so its high bit is that of `GetMsgType()`; in both
cases the low 31 bits are those of `GetMsgType()`. -/
theorem Write_msgtype (msg : IGCMsg) :
    (msg.IsProto = true → highBit (GameCoordinator.Write msg).Msgtype = true) ∧
    (msg.IsProto = false →
      (GameCoordinator.Write msg).Msgtype = msg.GetMsgType % 2 ^ 32) ∧
    low31 (GameCoordinator.Write msg).Msgtype = low31 msg.GetMsgType := by
  refine ⟨?_, ?_, ?_⟩
  · intro h
    simp only [GameCoordinator.Write, h, if_true, highBit]
    rw [Nat.testBit_mod_two_pow, Nat.testBit_or, testBit_two_pow_31]
    simp
  · intro h
    simp [GameCoordinator.Write, h]
  · unfold low31 GameCoordinator.Write
    cases msg.IsProto
    · simp only [Bool.false_eq_true, if_false]
      exact Nat.mod_mod_of_dvd _ (by norm_num)
    · simp only [if_true]
      apply Nat.eq_of_testBit_eq
      intro i
      simp only [Nat.testBit_mod_two_pow, Nat.testBit_or, testBit_two_pow_31]
      by_cases hi : i < 31
      · have h1 : i < 32 := by omega
        have h2 : ¬ 31 = i := by omega
        simp [hi, h1, h2]
      · simp [hi]

/-- C6 (witness): a schema-encoded message of type 4006. -/
theorem Write_msgtype_witness :
    highBit (GameCoordinator.Write ⟨570, 4006, true, []⟩).Msgtype = true :=
  (Write_msgtype ⟨570, 4006, true, []⟩).1 rfl

/-- C6 (counterexample): a message that is not schema-encoded and whose
`GetMsgType()` is `0x80000001` goes out with the high bit set. -/
theorem Write_high_bit_not_cleared :
    (⟨570, 0x80000001, false, []⟩ : IGCMsg).IsProto = false ∧
    highBit (GameCoordinator.Write ⟨570, 0x80000001, false, []⟩).Msgtype = true := by
  refine ⟨rfl, by decide⟩

/-! ## C7: dispatch order -/

/-- C7: after registering the handlers `hs` in order on a fresh
`GameCoordinator`, its handler list is `hs`, and `HandlePacket` on a packet of
type `EMsg_ClientFromGC` whose envelope decodes to `p` runs the handlers one
after the other in that order, each on `p`, and logs no error; with handlers
that record their invocation, the record is handler 1, handler 2, ... each
once, each with `p`. -/
theorem HandlePacket_dispatch {Pkt P E W : Type} (isClientFromGC : Pkt → Bool)
    (NewGCPacket : Pkt → Except E P) (hs : List (GCPacketHandler P W)) (ids : List Nat)
    (packet : Pkt) (p : P) (world : W)
    (hE : isClientFromGC packet = true) (hdec : NewGCPacket packet = .ok p) :
    (registerAll newGC hs).handlers = hs ∧
    GameCoordinator.HandlePacket isClientFromGC NewGCPacket (registerAll newGC hs) packet world
      = (hs.foldl (fun w handler => handler p w) world, []) ∧
    GameCoordinator.HandlePacket isClientFromGC NewGCPacket
        (registerAll newGC (ids.map recorder)) packet []
      = (ids.map (fun i => (i, p)), []) := by
  have h1 : ∀ (W1 : Type) (l : List (GCPacketHandler P W1)),
      (registerAll newGC l).handlers = l := by
    intro W1 l
    rw [registerAll_handlers]
    simp [newGC]
  refine ⟨h1 W hs, ?_, ?_⟩
  · simp [GameCoordinator.HandlePacket, hE, hdec, h1]
  · simp [GameCoordinator.HandlePacket, hE, hdec, h1, foldl_recorder]

/-- C7 (witness): three registered handlers and one packet. -/
theorem HandlePacket_dispatch_witness :
    (registerAll (newGC : GameCoordinator Nat (List (Nat × Nat)))
      [recorder 7, recorder 8, recorder 9]).handlers = [recorder 7, recorder 8, recorder 9] ∧
    GameCoordinator.HandlePacket (fun n : Nat => n == 5453)
        (fun _ => (Except.ok 42 : Except Unit Nat))
        (registerAll newGC [recorder 7, recorder 8, recorder 9]) 5453 []
      = ([recorder 7, recorder 8, recorder 9].foldl (fun w handler => handler 42 w) [], []) ∧
    GameCoordinator.HandlePacket (fun n : Nat => n == 5453)
        (fun _ => (Except.ok 42 : Except Unit Nat))
        (registerAll newGC ([1, 2, 3].map recorder)) 5453 []
      = ([1, 2, 3].map (fun i => (i, 42)), []) :=
  HandlePacket_dispatch (fun n : Nat => n == 5453) (fun _ => (Except.ok 42 : Except Unit Nat))
    [recorder 7, recorder 8, recorder 9] [1, 2, 3] 5453 42 [] rfl rfl

/-! ## C8: frame of the package step -/

/-- C8 (amended): for a package name `pkg` without `$`, the package step
splits every text into stretches, each a kept text followed by a match of
`package \w+`, and a kept rest; its result is the same sequence with every
match, wherever it stands, replaced by `package pkg` and every kept text and
the rest unchanged. Each match is `package ` followed by a complete,
non-empty run of word characters (what follows it does not start with a word
character), and no match of `package \w+` starts inside a kept text or inside
the rest: the step replaces exactly the matches of the leftmost scan and
nothing else. -/
theorem fixPackage_frame (pkg file : Text) (hdollar : '$' ∉ pkg) :
    ∃ (segs : List (Text × Text)) (rest : Text),
      file = (segs.map fun p => p.1 ++ p.2).flatten ++ rest ∧
      fixPackage uni pkg file
        = (segs.map fun p => p.1 ++ ("package ".toList ++ pkg)).flatten ++ rest ∧
      (∀ l1 p l2, segs = l1 ++ p :: l2 →
        ∃ w, p.2 = "package ".toList ++ w ∧ w ≠ [] ∧ (∀ c ∈ w, isWordChar c = true) ∧
          ∀ c, ((l2.map fun p => p.1 ++ p.2).flatten ++ rest).head? = some c →
            isWordChar c = false) ∧
      (∀ l1 p l2, segs = l1 ++ p :: l2 → ∀ u v, p.1 = u ++ v → v ≠ [] →
        pkgRegex (v ++ p.2 ++ ((l2.map fun p => p.1 ++ p.2).flatten ++ rest)) = none) ∧
      (∀ u v, rest = u ++ v → v ≠ [] → pkgRegex v = none) := by
  have htpl : '$' ∉ "package ".toList ++ pkg := by
    intro h
    rcases List.mem_append.mp h with h | h
    · exact absurd h (by decide)
    · exact hdollar h
  obtain ⟨segs, rest, h1, h2, h3, h4, h5⟩ :=
    replaceScan_segments pkgRegex (expand uni ("package ".toList ++ pkg))
      (fun t n h => ⟨(pkgRegex_shape t n h).1, (pkgRegex_shape t n h).2.1⟩) file
  refine ⟨segs, rest, h1, ?_, ?_, h4, h5⟩
  · unfold fixPackage
    rw [h2]
    congr 2
    apply List.map_congr_left
    intro p _
    rw [expand_no_dollar _ _ htpl]
  · intro l1 p l2 hsplit
    obtain ⟨w, F, heq, hn, hne, hall, hF⟩ := pkgRegex_extent _ _ (h3 l1 p l2 hsplit)
    have hlen : p.2.length = ("package ".toList ++ w).length := by
      rw [hn, List.length_append]; rfl
    obtain ⟨hp2, hFeq⟩ := List.append_inj heq hlen
    refine ⟨w, hp2, hne, hall, ?_⟩
    rw [hFeq]
    exact hF

/-- C8 (witness): a file with `package foo` in a comment and the clause
`package bar`. -/
theorem fixPackage_frame_witness :
    ∃ (segs : List (Text × Text)) (rest : Text),
      "// package foo is generated\npackage bar\n".toList
        = (segs.map fun p => p.1 ++ p.2).flatten ++ rest ∧
      fixPackage asciiTable "steam".toList "// package foo is generated\npackage bar\n".toList
        = (segs.map fun p => p.1 ++ ("package ".toList ++ "steam".toList)).flatten ++ rest ∧
      (∀ l1 p l2, segs = l1 ++ p :: l2 →
        ∃ w, p.2 = "package ".toList ++ w ∧ w ≠ [] ∧ (∀ c ∈ w, isWordChar c = true) ∧
          ∀ c, ((l2.map fun p => p.1 ++ p.2).flatten ++ rest).head? = some c →
            isWordChar c = false) ∧
      (∀ l1 p l2, segs = l1 ++ p :: l2 → ∀ u v, p.1 = u ++ v → v ≠ [] →
        pkgRegex (v ++ p.2 ++ ((l2.map fun p => p.1 ++ p.2).flatten ++ rest)) = none) ∧
      (∀ u v, rest = u ++ v → v ≠ [] → pkgRegex v = none) :=
  fixPackage_frame "steam".toList "// package foo is generated\npackage bar\n".toList
    (by decide)

/-- C8 (counterexample): a comment that holds `package foo` is rewritten
together with the package clause. -/
theorem fixPackage_rewrites_comment :
    fixPackage asciiTable "steam".toList "// package foo is generated\npackage bar\n".toList
      = "// package steam is generated\npackage steam\n".toList := by
  decide

/-! ## C9: the quoting writer -/

/-- C9 (amended): writing the slices `ps` (at least one `Write` call) in order through a
fresh `quotedWriter` delivers the marker followed by the concatenation of the
slices with the marker inserted after every line break; hence any other way
`qs` of cutting the same bytes into `Write` calls delivers the same bytes. -/
theorem writeAll_quotes (ps : List Text) (h : ps ≠ []) :
    (writeAll newQuotedWriter ps).w = marker ++ quoteLines ps.flatten ∧
    ∀ qs : List Text, qs ≠ [] → qs.flatten = ps.flatten →
      (writeAll newQuotedWriter qs).w = (writeAll newQuotedWriter ps).w := by
  refine ⟨writeAll_fresh ps h, ?_⟩
  intro qs hq heq
  rw [writeAll_fresh ps h, writeAll_fresh qs hq, heq]

/-- C9 (witness): four writes, one of them empty, with line breaks inside and
at the ends of the slices. -/
theorem writeAll_quotes_witness :
    (writeAll newQuotedWriter ["ab\nc".toList, "d\n".toList, [], "\n\nx".toList]).w
      = "> ab\n> cd\n> \n> \n> x".toList :=
  (writeAll_quotes ["ab\nc".toList, "d\n".toList, [], "\n\nx".toList] (by decide)).1

/-- C9 (counterexample): with no `Write` call nothing is delivered, not even
the marker, which the first call writes; so the empty sequence of slices does
not deliver the marker followed by the quoted concatenation, and zero calls and
one call with an empty slice, which carry the same bytes, deliver different
bytes. -/
theorem writeAll_no_call :
    (writeAll newQuotedWriter []).w = [] ∧
    (writeAll newQuotedWriter []).w ≠ marker ++ quoteLines ([] : List Text).flatten ∧
    ([] : List Text).flatten = [([] : Text)].flatten ∧
    (writeAll newQuotedWriter [[]]).w ≠ (writeAll newQuotedWriter []).w := by
  refine ⟨by decide, by decide, by decide, by decide⟩

/-! ## C10: panics of the rewrite -/

/-- C10: the text rewrite of `fixProto` returns (does not panic) exactly when
the target path contains a separator and every Local import has an alias; with
a separator in the path the index `len(pieces)-2` that `inferPackageName` reads
is in range, and without one it is `-1`. -/
theorem fixProto_crash_free (imports : List ImportSpec) (path file : Text) :
    ((fixProto uni imports path file).isSome = true ↔
      ('/' ∈ path ∧ ∀ i ∈ imports, isLocal i = true → i.Name.isSome = true)) ∧
    ('/' ∈ path → 0 ≤ ((splitSep '/' path).length : Int) - 2 ∧
      ((splitSep '/' path).length : Int) - 2 < (splitSep '/' path).length) ∧
    ('/' ∉ path → ((splitSep '/' path).length : Int) - 2 = -1) := by
  refine ⟨?_, ?_, ?_⟩
  · have h1 := stripImports_isSome_iff (importsToRemove imports) file
    have h2 := inferPackageName_isSome_iff path
    have h3 : (∀ i ∈ importsToRemove imports, i.Name.isSome = true) ↔
        ∀ i ∈ imports, isLocal i = true → i.Name.isSome = true := by
      simp [importsToRemove, List.mem_filter]
    rw [← h3, ← h1, ← h2]
    unfold fixProto
    cases stripImports (importsToRemove imports) file with
    | none => simp
    | some f1 =>
      cases inferPackageName path with
      | none => simp
      | some pkg => simp
  · intro h
    have hc : 0 < path.count '/' := List.count_pos_iff.mpr h
    rw [splitSep_length]
    constructor <;> omega
  · intro h
    rw [splitSep_length, List.count_eq_zero_of_not_mem h]
    rfl

/-- C10 (witness): a path with a separator, a Local import with an alias and
a non-Local import without one. -/
theorem fixProto_crash_free_witness :
    (fixProto asciiTable [⟨some "a".toList, "\"x.proto\"".toList⟩, ⟨none, "\"fmt\"".toList⟩]
      "steam/base.pb.go".toList "package x\n".toList).isSome = true :=
  (fixProto_crash_free [⟨some "a".toList, "\"x.proto\"".toList⟩, ⟨none, "\"fmt\"".toList⟩]
    "steam/base.pb.go".toList "package x\n".toList).1.mpr ⟨by decide, by decide⟩

end GoSteam
